import Mathlib

/-
Formal model of the indexing and search pipeline of the TP-Indexation-web
repository (src/TP3_Moteur_recherche/search_engine.py and src/indexer.py).

Modelling conventions:
* Python floats are modelled as exact rationals (ℚ); `math.log` is modelled
  as an explicit function parameter `logf : ℚ → ℚ` threaded through the
  scoring pipeline, so every statement about the BM25 formula is proved for
  an arbitrary logarithm function.
* Python dicts are modelled as association lists (`List (String × α)`)
  with first-match lookup; dict construction (which overwrites earlier
  bindings) goes through `pyInsert`, which keeps keys unique and preserves
  the insertion order of keys, exactly like CPython dicts.
* Python `str.lower` is modelled on the ASCII range (the only range that
  matters for `[a-z0-9]+` token extraction and URL schemes).
* Heterogeneous JSON-ish values (index postings, product features, review
  entries) are modelled by the inductive `JVal`.
* `urllib.parse.urlsplit`/`urlunsplit` are modelled after CPython 3.11
  (tab/CR/LF removal, scheme detection, netloc split at `/?#`, fragment
  then query split, and the `uses_netloc` relocation rule); the IPv6
  bracket `ValueError` path and non-ASCII netloc normalization check are
  not modelled (they only raise, and never occur on the URLs this
  pipeline handles).
-/

/-! ### Python-style primitives -/

/-- Model of `str.lower` on one character (ASCII range). -/
def pyLower (c : Char) : Char :=
  if 'A' ≤ c ∧ c ≤ 'Z' then Char.ofNat (c.toNat + 32) else c

/-- First-match lookup in an association list; models `dict.get` for dicts
with unique keys (all dicts built in this development have unique keys). -/
def pyGet {α : Type} : List (String × α) → String → Option α
  | [], _ => none
  | (k, v) :: rest, key => if key = k then some v else pyGet rest key

/-- Model of `d[k] = v` on a Python dict: overwrite the value in place if the
key is present (keeping the key position), otherwise append the binding. -/
def pyInsert {α : Type} (l : List (String × α)) (k : String) (v : α) :
    List (String × α) :=
  if (l.map Prod.fst).contains k then
    l.map (fun e => if e.1 = k then (k, v) else e)
  else l ++ [(k, v)]

/-- Rebuild an association list with Python-dict semantics: unique keys in
first-occurrence order, each key bound to its last value. -/
def pyDictNorm {α : Type} (l : List (String × α)) : List (String × α) :=
  l.foldl (fun acc e => pyInsert acc e.1 e.2) []

/-- JSON-like values: models the heterogeneous Python values that flow
through the pipeline (index postings, feature maps, review entries). -/
inductive JVal where
  | jnull
  | jbool (b : Bool)
  | jint (n : ℤ)
  | jfloat (q : ℚ)
  | jstr (s : String)
  | jlist (xs : List JVal)
  | jdict (kvs : List (String × JVal))

/-- Python truthiness of a `JVal` (`bool(v)`). -/
def pyTruthy : JVal → Bool
  | .jnull => false
  | .jbool b => b
  | .jint n => n != 0
  | .jfloat q => q != 0
  | .jstr s => s ≠ ""
  | .jlist xs => !xs.isEmpty
  | .jdict kvs => !kvs.isEmpty

/-- Model of Python `str(v)`.  Only the string/int/bool/None cases are exact;
containers never reach `str()` in the modelled code paths. -/
def pyStr : JVal → String
  | .jnull => "None"
  | .jbool b => if b then "True" else "False"
  | .jint n => toString n
  | .jfloat q => toString q
  | .jstr s => s
  | .jlist _ => ""
  | .jdict _ => ""

/-- Model of `isinstance(v, (int, float))` (Python bools are ints). -/
def isNumeric : JVal → Bool
  | .jint _ => true
  | .jfloat _ => true
  | .jbool _ => true
  | _ => false

/-- Numeric value of a numeric `JVal` (True = 1, False = 0). -/
def numVal : JVal → ℚ
  | .jint n => (n : ℚ)
  | .jfloat q => q
  | .jbool b => if b then 1 else 0
  | _ => 0

/-! ### Maximal-run scanner (shared low-level helper)

`runsBy p l` returns the maximal runs of consecutive characters satisfying
`p`, in order; all other characters act as separators.  It is the direct
model of `re.findall` for a character-class-plus regex, and of `str.split`
for the complement of a whitespace class. -/

def runsByF (p : Char → Bool) : ℕ → List Char → List (List Char)
  | 0, _ => []
  | _ + 1, [] => []
  | fuel + 1, c :: cs =>
    if p c then (c :: cs.takeWhile p) :: runsByF p fuel (cs.dropWhile p)
    else runsByF p fuel cs

/-- Maximal runs of `p`-characters.  The fuel argument of `runsByF` only
serves structural termination; `runsBy_cons` below recovers the natural
recursion. -/
def runsBy (p : Char → Bool) (l : List Char) : List (List Char) :=
  runsByF p l.length l

/-! ### Tokenization, search-engine side (search_engine.py lines 43-55) -/

/-- Character class of `_TOKEN_RE = re.compile(r"[a-z0-9]+")`. -/
def isTokChar (c : Char) : Bool :=
  ('a' ≤ c ∧ c ≤ 'z') ∨ ('0' ≤ c ∧ c ≤ '9')

/-- Model of `normalize_text(text) = (text or "").lower()`; `none` models a
Python `None` argument. -/
def normalize_text (text : Option String) : String :=
  ((text.getD "").toList.map pyLower).asString

/-- Model of `tokenize(text) = _TOKEN_RE.findall(normalize_text(text))`. -/
def tokenize (text : Option String) : List String :=
  (runsBy isTokChar (normalize_text text).toList).map List.asString

/-- Convenience wrapper for call sites that pass a plain string. -/
def tokenizeS (s : String) : List String := tokenize (some s)

/-- Model of `remove_stopwords(tokens, stopwords)`. -/
def remove_stopwords (tokens : List String) (stopwords : Finset String) :
    List String :=
  tokens.filter (fun t => ¬ t ∈ stopwords)

/-- Model of `get_default_stopwords()` (the query-side English list). -/
def get_default_stopwords : Finset String :=
  {"the", "a", "an", "and", "or", "of", "to", "in", "on", "for", "with",
   "is", "are", "was", "were", "be", "this", "that", "it", "as", "by"}

/-- Model of `expand_tokens_with_synonyms(tokens, synonyms)`: the original
tokens followed, for each original token found in the synonym map, by the
tokenized form of each of its synonyms. -/
def expand_tokens_with_synonyms (tokens : List String)
    (synonyms : List (String × List String)) : List String :=
  tokens ++ tokens.flatMap (fun t =>
    match pyGet synonyms t with
    | some syns => syns.flatMap (fun syn => tokenizeS syn)
    | none => [])

/-! ### Specification-side tokenizer (for claim C4)

`specRuns` is written from the SPEC's words, not from the code: "the maximal
runs matching `[a-z0-9]+` in the lower-cased text, in order of occurrence,
with all other characters acting as separators" — i.e. split the character
list at every non-token character and drop the empty pieces. -/

def specRuns (s : String) : List String :=
  ((s.toList.splitOnP (fun c => !isTokChar c)).filter
    (fun r => !r.isEmpty)).map List.asString

/-! ### Tokenization, indexer side (indexer.py lines 22-136) -/

namespace Indexer

/-- Characters removed by `PUNCT_TABLE` (`string.punctuation`); the last four
are the apostrophe, backtick and the two curly braces. -/
def punctChars : List Char :=
  "!\"#$%&()*+,-./:;<=>?@[\\]^_|~".toList ++
    [Char.ofNat 39, Char.ofNat 96, Char.ofNat 123, Char.ofNat 125]

/-- The right single quotation mark removed by `normalize_token`. -/
def rsquo : Char := Char.ofNat 8217

/-- Model of the indexer's bilingual `STOPWORDS` set. -/
def STOPWORDS : List String :=
  ["le", "la", "les", "un", "une", "des", "de", "du", "d", "et", "ou", "à",
   "a", "the", "an", "and", "or", "to", "of", "in", "for", "with", "on",
   "at"]

/-- Character class of Python `str.split()` separators (ASCII whitespace;
the exotic Unicode whitespace characters are not modelled). -/
def isPySpace (c : Char) : Bool :=
  c = ' ' ∨ c = '\t' ∨ c = '\n' ∨ c = '\r' ∨ c = Char.ofNat 11 ∨
    c = Char.ofNat 12

/-- Model of `text.split()`: maximal runs of non-whitespace characters. -/
def pySplit (s : String) : List (List Char) :=
  runsBy (fun c => !isPySpace c) s.toList

/-- Model of `normalize_token(raw)`: lower-case, then drop punctuation and
the typographic apostrophe (the ASCII apostrophe is already in
`punctChars`). -/
def normalize_token (raw : List Char) : String :=
  ((raw.map pyLower).filter
    (fun c => !(punctChars.contains c ∨ c = rsquo))).asString

/-- Model of the indexer's `tokenize(text)`: whitespace split, per-word
normalization, and inline stopword removal. -/
def tokenize (text : String) : List String :=
  (pySplit text).filterMap (fun raw =>
    let tok := normalize_token raw
    if tok ≠ "" ∧ ¬ STOPWORDS.contains tok then some tok else none)

/-- Helper for `tokenize_with_positions`: walks the whitespace-split words
keeping a counter that advances on every raw word. -/
def twpAux : List (List Char) → ℕ → List (String × ℕ)
  | [], _ => []
  | raw :: rest, pos =>
    let tok := normalize_token raw
    if tok ≠ "" ∧ ¬ STOPWORDS.contains tok then
      (tok, pos) :: twpAux rest (pos + 1)
    else twpAux rest (pos + 1)

/-- Model of `tokenize_with_positions(text)`. -/
def tokenize_with_positions (text : String) : List (String × ℕ) :=
  twpAux (pySplit text) 0

/-- A normalized document as consumed by the index builders (`main()` in
indexer.py builds these dicts; only the fields the builders read are
modelled). -/
structure IDoc where
  url : String
  title : String
  description : String
  deriving DecidableEq

/-- One `index[tok][url].append(pos)` step on the nested
defaultdict-of-defaultdict-of-list structure: missing keys are created at
the end of the key order, exactly like `defaultdict`. -/
def addPos (idx : List (String × List (String × List ℕ)))
    (tok url : String) (pos : ℕ) : List (String × List (String × List ℕ)) :=
  match pyGet idx tok with
  | none => idx ++ [(tok, [(url, [pos])])]
  | some m =>
    match pyGet m url with
    | none => pyInsert idx tok (m ++ [(url, [pos])])
    | some ps => pyInsert idx tok (pyInsert m url (ps ++ [pos]))

/-- Model of `build_positional_index_urls(docs, field_name)`: one pass over
the documents, appending every `(token, position)` pair of the tokenized
field into the nested index. -/
def build_positional_index_urls (docs : List IDoc) (field : IDoc → String) :
    List (String × List (String × List ℕ)) :=
  docs.foldl (fun idx d =>
    (tokenize_with_positions (field d)).foldl
      (fun idx tp => addPos idx tp.1 d.url tp.2) idx) []

/-- Positional-index cell lookup: `index[tok][url]` as an `Option`. -/
def cellOf (idx : List (String × List (String × List ℕ)))
    (tok url : String) : Option (List ℕ) :=
  (pyGet idx tok).bind (fun m => pyGet m url)

end Indexer

/-! ### URL canonicalization (search_engine.py lines 92-94, urllib.parse) -/

/-- The characters `urlsplit` removes anywhere in the URL
(`_UNSAFE_URL_BYTES_TO_REMOVE = ["\t", "\r", "\n"]`). -/
def isUnsafeUrlChar (c : Char) : Bool := c = '\t' ∨ c = '\r' ∨ c = '\n'

/-- Model of the unsafe-byte removal pass of `urlsplit`. -/
def removeUnsafe (l : List Char) : List Char :=
  l.filter (fun c => !isUnsafeUrlChar c)

/-- The characters allowed in a URL scheme (`scheme_chars`). -/
def schemeChars : List Char :=
  "abcdefghijklmnopqrstuvwxyzABCDEFGHIJKLMNOPQRSTUVWXYZ0123456789+-.".toList

/-- ASCII letters: the characters satisfying Python
`c.isascii() and c.isalpha()`. -/
def asciiAlpha : List Char :=
  "abcdefghijklmnopqrstuvwxyzABCDEFGHIJKLMNOPQRSTUVWXYZ".toList

/-- The guard under which `urlsplit` recognizes a scheme prefix: the first
`:` occurs at a positive index, the first character is an ASCII letter, and
everything before the `:` is a scheme character. -/
def schemeOk (l : List Char) : Bool :=
  let pre := l.takeWhile (fun c => c ≠ ':')
  pre.length < l.length && !pre.isEmpty &&
    (match l.head? with
     | some c => asciiAlpha.contains c
     | none => false) &&
    pre.all (fun c => schemeChars.contains c)

/-- Scheme split: on success the scheme is lower-cased and the `:` dropped. -/
def splitScheme (l : List Char) : List Char × List Char :=
  if schemeOk l then
    ((l.takeWhile (fun c => c ≠ ':')).map pyLower,
      (l.dropWhile (fun c => c ≠ ':')).tail)
  else ([], l)

/-- Netloc delimiter class of `_splitnetloc` (`'/?#'`). -/
def isNetlocDelim (c : Char) : Bool := c = '/' ∨ c = '?' ∨ c = '#'

/-- Model of `_splitnetloc(url, 2)` applied after the leading `//` has been
dropped: the netloc runs until the first of `/?#`. -/
def splitNetloc (l : List Char) : List Char × List Char :=
  (l.takeWhile (fun c => !isNetlocDelim c),
    l.dropWhile (fun c => !isNetlocDelim c))

/-- Model of `url.split(sep, 1)` guarded by `sep in url`: the part before
the first occurrence of `sep`, and the part after it (empty when `sep` does
not occur). -/
def splitOnFirst (sep : Char) (l : List Char) : List Char × List Char :=
  (l.takeWhile (fun c => c ≠ sep), (l.dropWhile (fun c => c ≠ sep)).tail)

/-- The five components returned by `urlsplit`. -/
structure UrlParts where
  scheme : List Char
  netloc : List Char
  path : List Char
  query : List Char
  fragment : List Char

/-- Model of `urllib.parse.urlsplit` (CPython 3.11, `allow_fragments=True`;
the IPv6-bracket and NFKC `ValueError` checks are not modelled). -/
def urlsplit (url : List Char) : UrlParts :=
  let u0 := removeUnsafe url
  let sr := splitScheme u0
  let u1 := sr.2
  let nr := if u1.take 2 = ['/', '/'] then splitNetloc (u1.drop 2)
            else ([], u1)
  let fr := splitOnFirst '#' nr.2
  let qr := splitOnFirst '?' fr.1
  ⟨sr.1, nr.1, qr.1, qr.2, fr.2⟩

/-- The `uses_netloc` scheme list of `urllib.parse` (CPython 3.11). -/
def uses_netloc : List (List Char) :=
  [[], "ftp".toList, "http".toList, "gopher".toList, "nntp".toList,
   "telnet".toList, "imap".toList, "wais".toList, "file".toList,
   "mms".toList, "https".toList, "shttp".toList, "snews".toList,
   "prospero".toList, "rtsp".toList, "rtspu".toList, "rsync".toList,
   "svn".toList, "svn+ssh".toList, "sftp".toList, "nfs".toList,
   "git".toList, "git+ssh".toList, "ws".toList, "wss".toList]

/-- Model of `urllib.parse.urlunsplit`. -/
def urlunsplit (scheme netloc path query fragment : List Char) :
    List Char :=
  let u1 :=
    if netloc ≠ [] ∨
        (scheme ≠ [] ∧ uses_netloc.contains scheme ∧
          path.take 2 ≠ ['/', '/']) then
      '/' :: '/' :: netloc ++
        (if path ≠ [] ∧ path.take 1 ≠ ['/'] then '/' :: path else path)
    else path
  let u2 := if scheme ≠ [] then scheme ++ ':' :: u1 else u1
  let u3 := if query ≠ [] then u2 ++ '?' :: query else u2
  if fragment ≠ [] then u3 ++ '#' :: fragment else u3

/-- Model of `canonicalize_url(url)`: re-assemble scheme, netloc and path
with empty query and fragment. -/
def canonicalize_url (url : String) : String :=
  let p := urlsplit url.toList
  (urlunsplit p.scheme p.netloc p.path [] []).asString

/-! ### Document store (search_engine.py lines 101-173) -/

/-- Model of the `DocRecord` dataclass. -/
structure DocRecord where
  doc_id : String
  url : String
  title : String
  description : String
  origin : String
  brand : String
  avg_rating : ℚ
  review_count : ℕ
  deriving DecidableEq

/-- A raw product record (a parsed JSON object). -/
abbrev RawDoc := List (String × JVal)

/-- The `product_features` dict of a raw record
(`doc.get("product_features") or {}`; a non-dict truthy value would make
the Python code raise, and is modelled as the empty dict). -/
def featuresOf (doc : RawDoc) : List (String × JVal) :=
  match pyGet doc "product_features" with
  | some (.jdict kvs) => kvs
  | _ => []

/-- The lower-case-keyed feature dict
(`{str(k).lower(): v for k, v in feats.items()}`; keys are already strings
in a parsed JSON object, so `str(k)` is the identity). -/
def normFeatures (doc : RawDoc) : List (String × JVal) :=
  (featuresOf doc).foldl
    (fun acc e => pyInsert acc ((e.1.toList.map pyLower).asString) e.2) []

/-- Python `a or b` on optional values: the first operand wins when present
and truthy. -/
def pyOr (a b : Option JVal) : Option JVal :=
  match a with
  | some v => if pyTruthy v then some v else b
  | none => b

/-- Model of `extract_origin(doc)`:
`str(norm.get("made in") or norm.get("made_in") or norm.get("origin") or "")`. -/
def extract_origin (doc : RawDoc) : String :=
  let norm := normFeatures doc
  match pyOr (pyGet norm "made in") (pyOr (pyGet norm "made_in")
      (pyGet norm "origin")) with
  | some v => pyStr v
  | none => ""

/-- Model of `extract_brand(doc)`: `str(norm.get("brand") or "")`. -/
def extract_brand (doc : RawDoc) : String :=
  let norm := normFeatures doc
  match pyOr (pyGet norm "brand") none with
  | some v => pyStr v
  | none => ""

/-- The `product_reviews` list of a raw record
(`doc.get("product_reviews") or []`). -/
def reviewsOf (doc : RawDoc) : List JVal :=
  match pyGet doc "product_reviews" with
  | some (.jlist xs) => xs
  | _ => []

/-- Model of `compute_reviews(doc)`: the ratings list keeps, for every dict
entry, `r.get("rating", 0)`, then filters to numeric values; the averages
and counts follow the source exactly. -/
def compute_reviews (doc : RawDoc) : ℚ × ℕ :=
  let reviews := reviewsOf doc
  if reviews.isEmpty then (0, 0)
  else
    let ratings₀ := reviews.filterMap (fun r =>
      match r with
      | .jdict kvs => some ((pyGet kvs "rating").getD (.jint 0))
      | _ => none)
    let ratings := ratings₀.filter isNumeric
    if ratings.isEmpty then (0, reviews.length)
    else ((ratings.map numVal).sum / ratings.length, reviews.length)

/-- One first-pass step of `build_doc_store`: skip records without a truthy
`url` string, otherwise insert the normalized record at its URL. -/
def storeStep (store : List (String × DocRecord)) (d : RawDoc) :
    List (String × DocRecord) :=
  let url := match pyGet d "url" with
    | some (.jstr s) => s
    | _ => ""
  if url = "" then store
  else
    let rc := compute_reviews d
    pyInsert store url
      { doc_id := url
        url := url
        title := match pyGet d "title" with
          | some (.jstr s) => s
          | _ => ""
        description := match pyGet d "description" with
          | some (.jstr s) => s
          | _ => ""
        origin := extract_origin d
        brand := extract_brand d
        avg_rating := rc.1
        review_count := rc.2 }

/-- First pass of `build_doc_store`: create one record per URL. -/
def buildStoreFirstPass (products : List RawDoc) :
    List (String × DocRecord) :=
  products.foldl storeStep []

/-- One iteration of the inheritance pass: the record at `url` inherits
`origin`/`brand` from the record at its canonical URL when its own value is
empty and the canonical record's one is not. -/
def inheritStep (store : List (String × DocRecord)) (url : String) :
    List (String × DocRecord) :=
  match pyGet store url with
  | none => store
  | some rc =>
    let canon := canonicalize_url url
    if canon = url then store
    else
      match pyGet store canon with
      | none => store
      | some parent =>
        pyInsert store url
          { rc with
            origin := if rc.origin = "" ∧ parent.origin ≠ "" then
                parent.origin
              else rc.origin
            brand := if rc.brand = "" ∧ parent.brand ≠ "" then parent.brand
              else rc.brand }

/-- Model of `build_doc_store(products)`: first pass creates the records,
second pass runs `inheritStep` over the snapshot of the store's keys in
insertion order. -/
def build_doc_store (products : List RawDoc) : List (String × DocRecord) :=
  let store := buildStoreFirstPass products
  (store.map Prod.fst).foldl inheritStep store

/-! ### Index access (search_engine.py lines 180-201) -/

/-- An on-disk index: a JSON object mapping tokens to postings values. -/
abbrev Idx := List (String × JVal)

/-- Model of `get_postings(index, token)`: a dict value is returned as-is
(normalized to Python-dict key semantics), a list value is turned into a
dict keyed by `str(p["doc_id"])` over its dict elements carrying a
`doc_id`, anything else gives the empty dict. -/
def get_postings (index : Idx) (token : String) : List (String × JVal) :=
  match pyGet index token with
  | some (.jdict kvs) => pyDictNorm kvs
  | some (.jlist xs) =>
    pyDictNorm (xs.filterMap (fun p =>
      match p with
      | .jdict kvs =>
        match pyGet kvs "doc_id" with
        | some v => some (pyStr v, JVal.jdict kvs)
        | none => none
      | _ => none))
  | _ => []

/-- Model of `posting_tf(posting)` (with `none` for an absent posting). -/
def posting_tf (posting : Option JVal) : ℤ :=
  match posting with
  | none => 0
  | some (.jbool b) => if b then 1 else 0
  | some (.jint n) => n
  | some (.jlist xs) => xs.length
  | some (.jdict kvs) =>
    match pyGet kvs "tf" with
    | some (.jint n) => n
    | some (.jbool b) => if b then 1 else 0
    | _ =>
      match pyGet kvs "pos" with
      | some (.jlist ps) => ps.length
      | _ => 0
  | some _ => 0

/-! ### BM25 statistics (search_engine.py lines 208-218) -/

/-- Model of the `CorpusStats` dataclass; `dl` keeps the association-list
form of the per-document length dict. -/
structure CorpusStats where
  N : ℕ
  avgdl : ℚ
  dl : List (String × ℕ)

/-- Model of `build_stats(doc_store, field)`: per-document tokenized field
lengths, their average, and the document count. -/
def build_stats (doc_store : List (String × DocRecord))
    (field : DocRecord → String) : CorpusStats :=
  let dl := (pyDictNorm doc_store).map
    (fun e => (e.1, (tokenizeS (field e.2)).length))
  let avgdl : ℚ :=
    if dl.isEmpty then 0
    else ((dl.map (fun e => (e.2 : ℚ))).sum / dl.length)
  ⟨dl.length, avgdl, dl⟩

/-! ### Candidate filtering (search_engine.py lines 225-239) -/

/-- The set of document ids matching one token across a list of indices
(one element of the `sets` list built by `filter_all`, and one clause of
the `filter_any` comprehension). -/
def tokenDocs (indexes : List Idx) (t : String) : Finset String :=
  (indexes.flatMap (fun idx => (get_postings idx t).map Prod.fst)).toFinset

/-- Model of `filter_any(tokens, indexes)`: the union over all tokens. -/
def filter_any (tokens : List String) (indexes : List Idx) : Finset String :=
  (tokens.flatMap (fun t =>
    indexes.flatMap (fun idx => (get_postings idx t).map Prod.fst))).toFinset

/-- Stable insertion step for the ascending-cardinality sort
(`sets.sort(key=len)`): an element is placed before the first element of
not-smaller cardinality, which matches Python's stable sort. -/
def insertByCard (x : Finset String) :
    List (Finset String) → List (Finset String)
  | [] => [x]
  | y :: ys => if y.card < x.card then y :: insertByCard x ys
    else x :: y :: ys

/-- Stable ascending sort by cardinality. -/
def sortByCard (l : List (Finset String)) : List (Finset String) :=
  l.foldr insertByCard []

/-- The intersection loop of `filter_all`, with the early break on an empty
intermediate result. -/
def interLoop (res : Finset String) : List (Finset String) → Finset String
  | [] => res
  | s :: rest =>
    let r := res ∩ s
    if r = ∅ then r else interLoop r rest

/-- Model of `filter_all(tokens, indexes)`: empty token list gives the
empty set; otherwise the per-token document sets are sorted by size and
intersected with an early break. -/
def filter_all (tokens : List String) (indexes : List Idx) : Finset String :=
  if tokens.isEmpty then ∅
  else
    match sortByCard (tokens.map (tokenDocs indexes)) with
    | [] => ∅
    | s :: rest => interLoop s rest

/-! ### Scoring (search_engine.py lines 246-261) -/

/-- Model of `bm25(tf, df, dl, avgdl, N, k1=1.2, b=0.75)`; `logf` stands
for `math.log`. -/
def bm25 (logf : ℚ → ℚ) (tf df dl : ℤ) (avgdl : ℚ) (N : ℤ)
    (k1 : ℚ := 6/5) (b : ℚ := 3/4) : ℚ :=
  if tf = 0 ∨ df = 0 ∨ dl = 0 ∨ avgdl = 0 ∨ N = 0 then 0
  else
    let idf := logf (1 + ((N : ℚ) - (df : ℚ) + 1/2) / ((df : ℚ) + 1/2))
    idf * ((tf : ℚ) * (k1 + 1)) /
      ((tf : ℚ) + k1 * (1 - b + b * (dl : ℚ) / avgdl))

/-- Model of `score_bm25(doc_id, tokens, index, stats)`. -/
def score_bm25 (logf : ℚ → ℚ) (doc_id : String) (tokens : List String)
    (index : Idx) (stats : CorpusStats) : ℚ :=
  let dl := ((pyGet stats.dl doc_id).getD 0 : ℕ)
  (tokens.map (fun t =>
    let postings := get_postings index t
    let df := postings.length
    let tf := posting_tf (pyGet postings doc_id)
    bm25 logf tf df dl stats.avgdl stats.N)).sum

/-! ### Search (search_engine.py lines 268-353) -/

/-- Prefix test on character lists (needle first). -/
def listStarts : List Char → List Char → Bool
  | [], _ => true
  | _ :: _, [] => false
  | a :: as, b :: bs => a = b && listStarts as bs

/-- Substring test on character lists (needle first); models Python
`needle in haystack` on strings, including `"" in s = True`. -/
def listSub (needle : List Char) : List Char → Bool
  | [] => needle.isEmpty
  | b :: bs => listStarts needle (b :: bs) || listSub needle bs

/-- The expanded query token list (`tokenize` then synonym expansion). -/
def searchTokens (query : String) (synonyms : List (String × List String)) :
    List String :=
  expand_tokens_with_synonyms (tokenizeS query) synonyms

/-- The candidate set of `search`:
`filter_all(tokens_ns, idxs) or filter_any(tokens, idxs)` — the
AND-intersection over the stopword-filtered expanded tokens when it is
non-empty, otherwise the OR-union over the unfiltered expanded tokens. -/
def searchCandidates (query : String) (stopwords : Finset String)
    (synonyms : List (String × List String))
    (title_idx desc_idx origin_idx brand_idx : Idx) : Finset String :=
  let tokens := searchTokens query synonyms
  let tokens_ns := remove_stopwords tokens stopwords
  let a := filter_all tokens_ns [title_idx, desc_idx, origin_idx, brand_idx]
  if a = ∅ then
    filter_any tokens [title_idx, desc_idx, origin_idx, brand_idx]
  else a

/-- The total score of one candidate document: the weighted per-field BM25
sum plus the four heuristic bonuses. -/
def docScore (logf : ℚ → ℚ) (query : String) (tokens : List String)
    (doc_id : String) (doc : DocRecord)
    (title_idx desc_idx origin_idx brand_idx : Idx)
    (statsT statsD statsO statsB : CorpusStats) : ℚ :=
  let base :=
    (11/5) * score_bm25 logf doc_id tokens title_idx statsT
    + 1 * score_bm25 logf doc_id tokens desc_idx statsD
    + (4/5) * score_bm25 logf doc_id tokens origin_idx statsO
    + (9/10) * score_bm25 logf doc_id tokens brand_idx statsB
  let s1 :=
    if listSub (normalize_text (some query)).toList
        (normalize_text (some doc.title)).toList then base + 6/5 else base
  let s2 :=
    if tokens.any (fun t => (tokenizeS doc.origin).contains t) then
      s1 + 4/5
    else s1
  s2 + (7/10) * (doc.avg_rating / 5) + (1/5) * logf (1 + doc.review_count)

/-- The scored candidate list of `search`.  The Python `for doc_id in
candidates` iterates a set in unspecified order; the model fixes the sorted
order (every property proved below is order-independent).  Candidates
absent from the document store are skipped, as in the source's
`if not doc: continue`. -/
def searchScored (logf : ℚ → ℚ) (query : String)
    (doc_store : List (String × DocRecord)) (stopwords : Finset String)
    (synonyms : List (String × List String))
    (title_idx desc_idx origin_idx brand_idx : Idx) : List (String × ℚ) :=
  let tokens := searchTokens query synonyms
  let candidates :=
    searchCandidates query stopwords synonyms title_idx desc_idx origin_idx
      brand_idx
  let statsT := build_stats doc_store DocRecord.title
  let statsD := build_stats doc_store DocRecord.description
  let statsO := build_stats doc_store DocRecord.origin
  let statsB := build_stats doc_store DocRecord.brand
  (candidates.sort (· ≤ ·)).filterMap (fun doc_id =>
    match pyGet doc_store doc_id with
    | none => none
    | some doc =>
      some (doc_id,
        docScore logf query tokens doc_id doc title_idx desc_idx origin_idx
          brand_idx statsT statsD statsO statsB))

/-- Stable insertion step for the descending sort by score
(`scored.sort(key=lambda x: x[1], reverse=True)`): an element is placed
before the first element of not-greater score, which matches Python's
stable sort. -/
def insertDesc (x : String × ℚ) : List (String × ℚ) → List (String × ℚ)
  | [] => [x]
  | y :: ys => if x.2 < y.2 then y :: insertDesc x ys else x :: y :: ys

/-- Stable descending sort by score. -/
def sortDesc (l : List (String × ℚ)) : List (String × ℚ) :=
  l.foldr insertDesc []

/-- The canonical-URL deduplication loop of `search`: keep the first entry
of every canonical form, in order (models the insertion-ordered `dedup`
dict). -/
def dedupCanon : List (String × ℚ) → List String → List (String × ℚ)
  | [], _ => []
  | e :: rest, seen =>
    let c := canonicalize_url e.1
    if seen.contains c then dedupCanon rest seen
    else e :: dedupCanon rest (c :: seen)

/-- One entry of the `documents` array returned by `search`. -/
structure ResultEntry where
  title : String
  url : String
  description : String
  score : ℚ
  origin : String
  brand : String
  avg_rating : ℚ
  review_count : ℕ
  deriving DecidableEq

/-- The result object returned by `search`. -/
structure SearchResult where
  query : String
  total_documents : ℕ
  documents_filtered : ℕ
  results_returned : ℕ
  documents : List ResultEntry

/-- Model of `search(query, doc_store, stopwords, synonyms, *indexes,
top_k)`: score the candidates, sort by score descending, deduplicate by
canonical URL, truncate to `top_k` and project the store records. -/
def search (logf : ℚ → ℚ) (query : String)
    (doc_store : List (String × DocRecord)) (stopwords : Finset String)
    (synonyms : List (String × List String))
    (title_idx desc_idx origin_idx brand_idx : Idx) (top_k : ℕ := 10) :
    SearchResult :=
  let candidates :=
    searchCandidates query stopwords synonyms title_idx desc_idx origin_idx
      brand_idx
  let scored :=
    searchScored logf query doc_store stopwords synonyms title_idx desc_idx
      origin_idx brand_idx
  let deduped := dedupCanon (sortDesc scored) []
  let results := (deduped.take top_k).filterMap (fun e =>
    (pyGet doc_store e.1).map (fun d =>
      { title := d.title
        url := d.url
        description := d.description
        score := e.2
        origin := d.origin
        brand := d.brand
        avg_rating := d.avg_rating
        review_count := d.review_count : ResultEntry }))
  { query := query
    total_documents := (pyDictNorm doc_store).length
    documents_filtered := candidates.card
    results_returned := results.length
    documents := results }

/-! ### Specification-side definitions used by individual claims -/

/-- Rating contribution of one review entry as the code computes it: a dict
entry contributes `r.get("rating", 0)` when that value is numeric, and
nothing otherwise; non-dict entries contribute nothing. -/
def ratingContrib (r : JVal) : Option ℚ :=
  match r with
  | .jdict kvs =>
    let v := (pyGet kvs "rating").getD (.jint 0)
    if isNumeric v then some (numVal v) else none
  | _ => none

/-- Rating contribution as claim C5 words it: only entries that carry a
numeric `rating` field contribute; entries without a numeric rating
contribute nothing. -/
def claimRating (r : JVal) : Option ℚ :=
  match r with
  | .jdict kvs =>
    match pyGet kvs "rating" with
    | some v => if isNumeric v then some (numVal v) else none
    | none => none
  | _ => none

/-- Positions of token `t` within the token sequence produced by the
indexer's `tokenize` — the position notion claim C8 asserts. -/
def claimPositions (text : String) (t : String) : List ℕ :=
  ((Indexer.tokenize text).enum.filterMap
    (fun iw => if iw.2 = t then some iw.1 else none))

/-- Positions of token `t` as the indexer actually computes them: indices
into the whitespace-split raw word sequence. -/
def wordPositions (text : String) (t : String) : List ℕ :=
  ((Indexer.pySplit text).enum.filterMap (fun iw =>
    let tok := Indexer.normalize_token iw.2
    if tok = t ∧ tok ≠ "" ∧ ¬ Indexer.STOPWORDS.contains tok then some iw.1
    else none))

/-! ### Concrete fixtures used by witnesses and counterexamples -/

/-- A raw record whose review list holds one rated and one rating-less
entry (counterexample input for claim C5). -/
def reviewsFixture : RawDoc :=
  [("product_reviews",
    .jlist [.jdict [("rating", .jint 4)], .jdict [("note", .jstr "ok")]])]

/-- A feature map binding `"made in"` to an empty (falsy) string and
`"origin"` to a non-empty one (counterexample input for claim C6). -/
def originFixtureFalsy : RawDoc :=
  [("product_features",
    .jdict [("made in", .jstr ""), ("origin", .jstr "France")])]

/-- A feature map binding `"Made In"` to a truthy string together with the
two lower-priority spellings (witness input for claim C6). -/
def originFixtureTruthy : RawDoc :=
  [("product_features",
    .jdict [("Made In", .jstr "France"), ("made_in", .jstr "Italy"),
      ("origin", .jstr "Spain")])]

/-- The two-record product list of the inheritance scenario: a canonical
product page carrying a brand, and a query-parameter variant without one
(witness input for claim C7). -/
def inheritFixture : List RawDoc :=
  [[("url", .jstr "http://x/product/1"),
    ("product_features", .jdict [("brand", .jstr "Acme")])],
   [("url", .jstr "http://x/product/1?variant=2")]]

/-- A one-document store satisfying the store invariant (witness input for
claim C3). -/
def storeFixture : List (String × DocRecord) :=
  [("http://x/a",
    { doc_id := "http://x/a"
      url := "http://x/a"
      title := "a"
      description := ""
      origin := ""
      brand := ""
      avg_rating := 0
      review_count := 0 })]

/-- A one-document title index in compact list form (witness input for
claim C2). -/
def idxFixture : Idx :=
  [("cat", .jlist [.jdict [("doc_id", .jstr "http://x/a")]])]

/-- A single-document list for the positional-index counterexample and
witness of claim C8. -/
def posFixture : List Indexer.IDoc :=
  [{ url := "http://x/a", title := "the cat", description := "" }]

/-- Append `app` to the contents of an optional defaultdict cell: no-op on
an empty append, otherwise the cell springs into existence. -/
def appOpt (o : Option (List ℕ)) (app : List ℕ) : Option (List ℕ) :=
  if app = [] then o else some (o.getD [] ++ app)

/-- The invariant relating the first-pass store to any store reachable by
inheritance steps: every record still exists, and non-empty first-pass
`origin`/`brand` values are never overwritten. -/
def storeInv (store0 store : List (String × DocRecord)) : Prop :=
  ∀ (k : String) (r0 : DocRecord), pyGet store0 k = some r0 →
    ∃ r : DocRecord, pyGet store k = some r ∧
      (r0.origin ≠ "" → r.origin = r0.origin) ∧
      (r0.brand ≠ "" → r.brand = r0.brand)

/-- Lower-cased scheme characters: what a parsed scheme consists of. -/
def schemeLowerChars : List Char :=
  "abcdefghijklmnopqrstuvwxyz0123456789+-.".toList

/-- Lower-case ASCII letters. -/
def lowerAlphaChars : List Char := "abcdefghijklmnopqrstuvwxyz".toList

/-- A non-empty, already lower-cased, well-formed scheme as produced by
`splitScheme`. -/
def SchemeValid (sch : List Char) : Prop :=
  (∀ c ∈ sch, c ∈ schemeLowerChars) ∧
    ∃ c₀ rest, sch = c₀ :: rest ∧ c₀ ∈ lowerAlphaChars

/-- Absence of the characters that `urlsplit` removes. -/
def cleanL (l : List Char) : Prop := ∀ c ∈ l, isUnsafeUrlChar c = false

/-! ### Association-list infrastructure lemmas -/

theorem runsByF_congr (p : Char → Bool) :
    ∀ (f₁ : ℕ) {f₂ : ℕ} {l : List Char}, l.length ≤ f₁ → l.length ≤ f₂ →
      runsByF p f₁ l = runsByF p f₂ l := by
  intro f₁
  induction f₁ with
  | zero =>
    intro f₂ l h₁ h₂
    have : l = [] := List.length_eq_zero.mp (Nat.le_zero.mp h₁)
    subst this
    cases f₂ <;> rfl
  | succ n ih =>
    intro f₂ l h₁ h₂
    cases l with
    | nil => cases f₂ <;> rfl
    | cons c cs =>
      cases f₂ with
      | zero => exact absurd h₂ (by simp)
      | succ m =>
        simp only [runsByF]
        by_cases hp : p c
        · rw [if_pos hp, if_pos hp]
          have hd : (cs.dropWhile p).length ≤ cs.length :=
            (List.dropWhile_sublist p).length_le
          rw [ih (Nat.le_trans hd (Nat.le_of_succ_le_succ h₁))
            (Nat.le_trans hd (Nat.le_of_succ_le_succ h₂))]
        · rw [if_neg hp, if_neg hp]
          exact ih (Nat.le_of_succ_le_succ h₁) (Nat.le_of_succ_le_succ h₂)

theorem runsBy_nil (p : Char → Bool) : runsBy p [] = [] := rfl

theorem runsBy_cons (p : Char → Bool) (c : Char) (cs : List Char) :
    runsBy p (c :: cs) =
      if p c then (c :: cs.takeWhile p) :: runsBy p (cs.dropWhile p)
      else runsBy p cs := by
  show runsByF p (cs.length + 1) (c :: cs) = _
  simp only [runsByF]
  by_cases hp : p c
  · rw [if_pos hp, if_pos hp]
    unfold runsBy
    rw [runsByF_congr p cs.length ((List.dropWhile_sublist p).length_le)
      (Nat.le_refl _)]
  · rw [if_neg hp, if_neg hp]
    rfl


theorem pyGet_nil {α : Type} (key : String) :
    pyGet ([] : List (String × α)) key = none := rfl

theorem pyGet_cons {α : Type} (k₁ : String) (v₁ : α)
    (rest : List (String × α)) (key : String) :
    pyGet ((k₁, v₁) :: rest) key =
      if key = k₁ then some v₁ else pyGet rest key := rfl

theorem pyGet_append {α : Type} (l l' : List (String × α)) (key : String) :
    pyGet (l ++ l') key =
      match pyGet l key with
      | some v => some v
      | none => pyGet l' key := by
  induction l with
  | nil => rfl
  | cons e rest ih =>
    obtain ⟨k₁, v₁⟩ := e
    rw [List.cons_append, pyGet_cons, pyGet_cons]
    by_cases h : key = k₁
    · rw [if_pos h, if_pos h]
    · rw [if_neg h, if_neg h, ih]

theorem pyGet_eq_none_of_not_contains {α : Type} (l : List (String × α))
    (k : String) (h : ¬ (l.map Prod.fst).contains k = true) :
    pyGet l k = none := by
  induction l with
  | nil => rfl
  | cons e rest ih =>
    obtain ⟨k₁, v₁⟩ := e
    simp only [List.map_cons, List.contains_cons, Bool.or_eq_true,
      beq_iff_eq] at h
    push_neg at h
    rw [pyGet_cons, if_neg h.1]
    exact ih h.2

theorem pyGet_map_overwrite {α : Type} (l : List (String × α)) (k : String)
    (v : α) (key : String) :
    pyGet (l.map (fun e => if e.1 = k then (k, v) else e)) key =
      if key = k then (pyGet l k).map (fun _ => v) else pyGet l key := by
  induction l with
  | nil => simp [pyGet_nil]
  | cons e rest ih =>
    obtain ⟨k₁, v₁⟩ := e
    rw [List.map_cons]
    show pyGet ((if k₁ = k then (k, v) else (k₁, v₁)) ::
      rest.map (fun e => if e.1 = k then (k, v) else e)) key = _
    by_cases h₁ : k₁ = k
    · subst h₁
      rw [if_pos rfl, pyGet_cons]
      by_cases h₂ : key = k₁
      · rw [if_pos h₂, if_pos h₂, pyGet_cons k₁ v₁ rest k₁, if_pos rfl]
        rfl
      · rw [if_neg h₂, ih, if_neg h₂, if_neg h₂, pyGet_cons k₁ v₁ rest key,
          if_neg h₂]
    · rw [if_neg h₁, pyGet_cons]
      by_cases h₂ : key = k₁
      · subst h₂
        rw [if_pos rfl, if_neg h₁]
        rw [pyGet_cons key v₁ rest key, if_pos rfl]
      · rw [if_neg h₂, ih, pyGet_cons k₁ v₁ rest k,
          pyGet_cons k₁ v₁ rest key, if_neg h₂,
          if_neg (fun hh : k = k₁ => h₁ hh.symm)]

theorem pyGet_isSome_of_contains {α : Type} (l : List (String × α))
    (k : String) (h : (l.map Prod.fst).contains k = true) :
    (pyGet l k).isSome := by
  induction l with
  | nil => simp at h
  | cons e rest ih =>
    obtain ⟨k₁, v₁⟩ := e
    simp only [List.map_cons, List.contains_cons, Bool.or_eq_true,
      beq_iff_eq] at h
    rw [pyGet_cons]
    by_cases h₂ : k = k₁
    · rw [if_pos h₂]; rfl
    · rw [if_neg h₂]
      exact ih (h.resolve_left (fun hh => h₂ hh))

theorem pyGet_pyInsert {α : Type} (l : List (String × α)) (k : String)
    (v : α) (key : String) :
    pyGet (pyInsert l k v) key = if key = k then some v else pyGet l key := by
  unfold pyInsert
  by_cases hc : (l.map Prod.fst).contains k = true
  · rw [if_pos hc, pyGet_map_overwrite]
    by_cases h : key = k
    · rw [if_pos h, if_pos h]
      obtain ⟨w, hw⟩ :=
        Option.isSome_iff_exists.mp (pyGet_isSome_of_contains l k hc)
      rw [hw]; rfl
    · rw [if_neg h, if_neg h]
  · rw [if_neg hc, pyGet_append]
    by_cases h : key = k
    · subst h
      rw [pyGet_eq_none_of_not_contains l key hc, if_pos rfl]
      show pyGet [(key, v)] key = some v
      rw [pyGet_cons, if_pos rfl]
    · cases hg : pyGet l key with
      | some w => rw [if_neg h]
      | none =>
        rw [if_neg h]
        show pyGet [(k, v)] key = none
        rw [pyGet_cons, if_neg h, pyGet_nil]

theorem pyInsert_keys {α : Type} (l : List (String × α)) (k : String)
    (v : α) :
    (pyInsert l k v).map Prod.fst =
      if (l.map Prod.fst).contains k then l.map Prod.fst
      else l.map Prod.fst ++ [k] := by
  unfold pyInsert
  by_cases hc : (l.map Prod.fst).contains k = true
  · rw [if_pos hc, if_pos hc, List.map_map]
    refine List.map_congr_left (fun e _ => ?_)
    by_cases h : e.1 = k
    · simp only [Function.comp_apply, if_pos h]; exact h.symm
    · simp only [Function.comp_apply, if_neg h]
  · rw [if_neg hc, if_neg hc]
    simp

theorem pyGet_mem {α : Type} (l : List (String × α)) (k : String) (v : α)
    (h : pyGet l k = some v) : (k, v) ∈ l := by
  induction l with
  | nil => simp [pyGet_nil] at h
  | cons e rest ih =>
    obtain ⟨k₁, v₁⟩ := e
    rw [pyGet_cons] at h
    by_cases h₁ : k = k₁
    · rw [if_pos h₁] at h
      obtain rfl : v₁ = v := Option.some.inj h
      subst h₁
      exact List.mem_cons_self _ _
    · rw [if_neg h₁] at h
      exact List.mem_cons_of_mem _ (ih h)

/-! ### Claim C1: the BM25 formula and its zero guards -/

/-- C1: for every term and field, `bm25` with `k1 = 1.2` and `b = 0.75`
returns exactly `idf * tf*(k1+1) / (tf + k1*(1-b+b*dl/avgdl))` with
`idf = ln(1 + (N-df+0.5)/(df+0.5))` when `tf`, `df`, `dl`, `avgdl` and `N`
are all nonzero, and returns exactly `0.0` (without raising) whenever any
of them is zero.  `logf` stands for the math-library logarithm. -/
theorem bm25_formula (logf : ℚ → ℚ) (tf df dl : ℤ) (avgdl : ℚ) (N : ℤ) :
    (tf = 0 ∨ df = 0 ∨ dl = 0 ∨ avgdl = 0 ∨ N = 0 →
      bm25 logf tf df dl avgdl N = 0) ∧
    (tf ≠ 0 → df ≠ 0 → dl ≠ 0 → avgdl ≠ 0 → N ≠ 0 →
      bm25 logf tf df dl avgdl N =
        logf (1 + ((N : ℚ) - (df : ℚ) + 1/2) / ((df : ℚ) + 1/2)) *
          ((tf : ℚ) * (6/5 + 1)) /
          ((tf : ℚ) + (6/5) * (1 - 3/4 + (3/4) * (dl : ℚ) / avgdl))) := by
  constructor
  · intro h
    rw [bm25, if_pos h]
  · intro h1 h2 h3 h4 h5
    rw [bm25, if_neg]
    push_neg
    exact ⟨h1, h2, h3, h4, h5⟩

/-- Witness for C1 at `tf = df = dl = avgdl = N = 1` with the constant-2
logarithm: the formula collapses to the value 2. -/
theorem bm25_formula_witness : bm25 (fun _ => 2) 1 1 1 1 1 = 2 := by
  have h := (bm25_formula (fun _ => 2) 1 1 1 1 1).2 (by norm_num)
    (by norm_num) (by norm_num) (by norm_num) (by norm_num)
  rw [h]
  norm_num

/-! ### Claim C9: the AND filter is a subset of the OR filter -/

theorem interLoop_subset (l : List (Finset String)) :
    ∀ res : Finset String, interLoop res l ⊆ res := by
  induction l with
  | nil => intro res; exact Finset.Subset.refl res
  | cons s rest ih =>
    intro res
    show (if res ∩ s = ∅ then res ∩ s else interLoop (res ∩ s) rest) ⊆ res
    by_cases h : res ∩ s = ∅
    · rw [if_pos h]
      exact Finset.inter_subset_left
    · rw [if_neg h]
      exact (ih (res ∩ s)).trans Finset.inter_subset_left

theorem insertByCard_perm (x : Finset String) (l : List (Finset String)) :
    (insertByCard x l).Perm (x :: l) := by
  induction l with
  | nil => exact List.Perm.refl _
  | cons y ys ih =>
    show (if y.card < x.card then y :: insertByCard x ys
      else x :: y :: ys).Perm _
    by_cases h : y.card < x.card
    · rw [if_pos h]
      exact (ih.cons y).trans (List.Perm.swap x y ys)
    · rw [if_neg h]

theorem sortByCard_perm (l : List (Finset String)) :
    (sortByCard l).Perm l := by
  induction l with
  | nil => exact List.Perm.refl _
  | cons x xs ih =>
    exact (insertByCard_perm x (sortByCard xs)).trans (ih.cons x)

theorem tokenDocs_subset_filter_any (tokens : List String)
    (indexes : List Idx) (t : String) (ht : t ∈ tokens) :
    tokenDocs indexes t ⊆ filter_any tokens indexes := by
  intro x hx
  rw [tokenDocs, List.mem_toFinset] at hx
  rw [filter_any, List.mem_toFinset, List.mem_flatMap]
  exact ⟨t, ht, hx⟩

/-- C9: for every token list and every list of indices, the document-id set
returned by `filter_all` is a subset of the one returned by `filter_any`
over the same tokens and indices. -/
theorem filter_all_subset_filter_any (tokens : List String)
    (indexes : List Idx) :
    filter_all tokens indexes ⊆ filter_any tokens indexes := by
  rw [filter_all]
  by_cases he : tokens.isEmpty
  · rw [if_pos he]
    exact Finset.empty_subset _
  · rw [if_neg he]
    cases hs : sortByCard (tokens.map (tokenDocs indexes)) with
    | nil => exact Finset.empty_subset _
    | cons s rest =>
      have hmem : s ∈ tokens.map (tokenDocs indexes) := by
        have hperm := sortByCard_perm (tokens.map (tokenDocs indexes))
        rw [hs] at hperm
        exact hperm.mem_iff.mp (List.mem_cons_self s rest)
      obtain ⟨t, ht, rfl⟩ := List.mem_map.mp hmem
      exact (interLoop_subset rest _).trans
        (tokenDocs_subset_filter_any tokens indexes t ht)

/-! ### Claim C2: AND-then-OR candidate selection -/

/-- C2: the candidate set used by `search` is the AND-intersection
(`filter_all`) of the four indices over the stopword-filtered expanded
tokens; whenever that intersection is empty — in particular whenever the
filtered token list itself is empty — it is instead the OR-union
(`filter_any`) over the unfiltered expanded tokens. -/
theorem searchCandidates_spec (query : String) (stopwords : Finset String)
    (synonyms : List (String × List String)) (tidx didx oidx bidx : Idx) :
    (filter_all (remove_stopwords (searchTokens query synonyms) stopwords)
        [tidx, didx, oidx, bidx] ≠ ∅ →
      searchCandidates query stopwords synonyms tidx didx oidx bidx =
        filter_all (remove_stopwords (searchTokens query synonyms) stopwords)
          [tidx, didx, oidx, bidx]) ∧
    (filter_all (remove_stopwords (searchTokens query synonyms) stopwords)
        [tidx, didx, oidx, bidx] = ∅ →
      searchCandidates query stopwords synonyms tidx didx oidx bidx =
        filter_any (searchTokens query synonyms)
          [tidx, didx, oidx, bidx]) ∧
    (remove_stopwords (searchTokens query synonyms) stopwords = [] →
      searchCandidates query stopwords synonyms tidx didx oidx bidx =
        filter_any (searchTokens query synonyms) [tidx, didx, oidx, bidx]) := by
  refine ⟨fun h => ?_, fun h => ?_, fun h => ?_⟩
  · rw [searchCandidates, if_neg h]
  · rw [searchCandidates, if_pos h]
  · rw [searchCandidates, if_pos]
    rw [h]
    rfl

/-- Witness for C2 on the all-stopword query `"the"` with empty synonym
map: the filtered token list is empty, so the candidate set is the OR-union
over the unfiltered tokens (here over the fixture title index). -/
theorem searchCandidates_spec_witness :
    remove_stopwords (searchTokens "the" []) get_default_stopwords = [] ∧
      searchCandidates "the" get_default_stopwords [] idxFixture [] [] [] =
        filter_any (searchTokens "the" []) [idxFixture, [], [], []] :=
  ⟨by decide,
    (searchCandidates_spec "the" get_default_stopwords [] idxFixture
      [] [] []).2.2 (by decide)⟩

/-! ### Claim C6: origin extraction and Python `or` truthiness -/

/-- C6 (amended): the origin lookup tries the lower-cased keys `made in`,
`made_in`, `origin` in priority order, but a key only wins when its value
is truthy; in particular, whenever the lower-cased feature map binds
`made in` to a truthy value, the result is that value's stringification,
regardless of the other keys. -/
theorem extract_origin_made_in (doc : RawDoc) (v : JVal)
    (h1 : pyGet (normFeatures doc) "made in" = some v)
    (h2 : pyTruthy v = true) :
    extract_origin doc = pyStr v := by
  rw [extract_origin]
  show (match pyOr (pyGet (normFeatures doc) "made in") _ with
    | some v => pyStr v
    | none => "") = pyStr v
  rw [h1]
  show (match (if pyTruthy v then some v else _) with
    | some v => pyStr v
    | none => "") = pyStr v
  rw [if_pos h2]

/-- Witness for C6: a feature map with `"Made In": "France"` (truthy) also
binding the lower-priority spellings; the extracted origin is `France`. -/
theorem extract_origin_made_in_witness :
    extract_origin originFixtureTruthy = pyStr (.jstr "France") :=
  extract_origin_made_in originFixtureTruthy (.jstr "France") rfl rfl

/-- Counterexample to C6 as stated: the map binds the key `made in` (to the
falsy empty string), yet the extracted origin is the value under `origin`,
not the stringification of the `made in` value. -/
theorem extract_origin_claim_counterexample :
    pyGet (normFeatures originFixtureFalsy) "made in" = some (.jstr "") ∧
      extract_origin originFixtureFalsy = "France" ∧
      pyStr (.jstr "") ≠ "France" :=
  ⟨rfl, rfl, by decide⟩

/-! ### Claim C5: review statistics -/

theorem ratings_eq_ratingContrib (l : List JVal) :
    ((l.filterMap (fun r =>
        match r with
        | .jdict kvs => some ((pyGet kvs "rating").getD (.jint 0))
        | _ => none)).filter isNumeric).map numVal =
      l.filterMap ratingContrib ∧
    ((l.filterMap (fun r =>
        match r with
        | .jdict kvs => some ((pyGet kvs "rating").getD (.jint 0))
        | _ => none)).filter isNumeric).length =
      (l.filterMap ratingContrib).length := by
  induction l with
  | nil => exact ⟨rfl, rfl⟩
  | cons r rest ih =>
    cases r with
    | jdict kvs =>
      by_cases h : isNumeric ((pyGet kvs "rating").getD (.jint 0)) = true
      · simp [List.filterMap_cons, List.filter_cons, ratingContrib, h,
          ih.1, ih.2]
      · simp [List.filterMap_cons, List.filter_cons, ratingContrib, h,
          ih.1, ih.2]
    | jnull => simpa [List.filterMap_cons, ratingContrib] using ih
    | jbool b => simpa [List.filterMap_cons, ratingContrib] using ih
    | jint n => simpa [List.filterMap_cons, ratingContrib] using ih
    | jfloat q => simpa [List.filterMap_cons, ratingContrib] using ih
    | jstr s => simpa [List.filterMap_cons, ratingContrib] using ih
    | jlist xs => simpa [List.filterMap_cons, ratingContrib] using ih

/-- C5 (amended): `review_count` is always the total entry count of a
non-empty review list; `avg_rating` averages `r.get("rating", 0)` over the
dict entries whose resulting value is numeric — a dict entry without a
`rating` key therefore contributes 0 to the average; with no numeric
contribution at all the average is 0. -/
theorem compute_reviews_spec (doc : RawDoc) :
    ((reviewsOf doc).isEmpty = true → compute_reviews doc = (0, 0)) ∧
    ((reviewsOf doc).isEmpty = false →
      ((reviewsOf doc).filterMap ratingContrib).isEmpty = true →
      compute_reviews doc = (0, (reviewsOf doc).length)) ∧
    ((reviewsOf doc).isEmpty = false →
      ((reviewsOf doc).filterMap ratingContrib).isEmpty = false →
      compute_reviews doc =
        (((reviewsOf doc).filterMap ratingContrib).sum /
            ((reviewsOf doc).filterMap ratingContrib).length,
          (reviewsOf doc).length)) := by
  refine ⟨fun h => ?_, fun h hc => ?_, fun h hc => ?_⟩
  · rw [compute_reviews, if_pos h]
  · have h2 := (ratings_eq_ratingContrib (reviewsOf doc)).2
    rw [List.isEmpty_iff] at hc
    rw [hc, List.length_nil, List.length_eq_zero] at h2
    rw [compute_reviews, if_neg (by rw [h]; exact Bool.false_ne_true),
      if_pos (by rw [List.isEmpty_iff]; exact h2)]
  · have h1 := (ratings_eq_ratingContrib (reviewsOf doc)).1
    have h2 := (ratings_eq_ratingContrib (reviewsOf doc)).2
    rw [compute_reviews, if_neg (by rw [h]; exact Bool.false_ne_true),
      if_neg]
    · rw [Prod.mk.injEq]
      exact ⟨by rw [← h2, ← h1], rfl⟩
    · intro hemp
      rw [List.isEmpty_iff] at hemp
      rw [hemp, List.map_nil] at h1
      rw [← h1] at hc
      simp at hc

/-- Witness for C5 (amended) on the fixture list `[{rating: 4}, {}]`: the
dict entry without a rating contributes 0, so the average is 2 over 2
entries. -/
theorem compute_reviews_spec_witness :
    compute_reviews reviewsFixture = (2, 2) := by
  have h := (compute_reviews_spec reviewsFixture).2.2 rfl rfl
  rw [h]
  simp [reviewsOf, reviewsFixture, ratingContrib, pyGet_cons, pyGet_nil,
    isNumeric, numVal, List.filterMap_cons]
  norm_num

/-- Counterexample to C5 as stated: on `[{rating: 4}, {}]` the average over
entries that carry a numeric rating would be 4, but the code returns 2
because the rating-less dict entry contributes `r.get("rating", 0) = 0`. -/
theorem compute_reviews_claim_counterexample :
    (reviewsOf reviewsFixture).filterMap claimRating = [4] ∧
      compute_reviews reviewsFixture = (2, 2) ∧ (2 : ℚ) ≠ 4 := by
  refine ⟨?_, ?_, by norm_num⟩
  · show List.filterMap claimRating
      [.jdict [("rating", .jint 4)], .jdict [("note", .jstr "ok")]] = [4]
    simp [claimRating, pyGet_cons, pyGet_nil, numVal, isNumeric,
      List.filterMap_cons]
  · rw [compute_reviews]
    simp [reviewsOf, reviewsFixture, pyGet_cons, pyGet_nil, numVal,
      isNumeric, List.filterMap_cons, List.filter_cons]
    norm_num

/-! ### Claim C4: the two tokenizers -/

theorem splitOnP_structure (p : Char → Bool) (l : List Char) :
    l.splitOnP (fun c => !p c) =
      (match l.dropWhile p with
      | [] => [l.takeWhile p]
      | _ :: rest => l.takeWhile p :: rest.splitOnP (fun c => !p c)) := by
  induction l with
  | nil => rfl
  | cons c cs ih =>
    by_cases hp : p c
    · rw [List.splitOnP_cons, if_neg (by simp [hp]), ih,
        List.takeWhile_cons_of_pos hp, List.dropWhile_cons_of_pos hp]
      cases hd : cs.dropWhile p with
      | nil => rfl
      | cons d rest => rfl
    · rw [List.splitOnP_cons, if_pos (by simp [hp]),
        List.takeWhile_cons_of_neg hp, List.dropWhile_cons_of_neg hp]

theorem runsBy_eq_splitOnP_aux (p : Char → Bool) :
    ∀ (n : ℕ) (l : List Char), l.length ≤ n →
      runsBy p l =
        (l.splitOnP (fun c => !p c)).filter (fun r => !r.isEmpty) := by
  intro n
  induction n with
  | zero =>
    intro l h
    have : l = [] := List.length_eq_zero.mp (Nat.le_zero.mp h)
    subst this
    rfl
  | succ n ih =>
    intro l h
    cases l with
    | nil => rfl
    | cons c cs =>
      by_cases hp : p c
      · rw [runsBy_cons, if_pos hp, splitOnP_structure,
          List.takeWhile_cons_of_pos hp, List.dropWhile_cons_of_pos hp]
        cases hd : cs.dropWhile p with
        | nil =>
          rw [runsBy_nil]
          show _ = List.filter (fun r => !r.isEmpty)
            [c :: List.takeWhile p cs]
          simp
        | cons d rest =>
          have hne : cs.dropWhile p ≠ [] := by
            rw [hd]; exact List.cons_ne_nil d rest
          have hpd : ¬ p d = true := by
            have hh := List.head_dropWhile_not p cs hne
            simp only [hd, List.head_cons] at hh
            simp [hh]
          have hlen : rest.length ≤ n := by
            have h1 : (cs.dropWhile p).length ≤ cs.length :=
              (List.dropWhile_sublist p).length_le
            rw [hd, List.length_cons] at h1
            have h2 : cs.length ≤ n := Nat.le_of_succ_le_succ h
            omega
          rw [runsBy_cons, if_neg hpd]
          show _ = List.filter (fun r => !r.isEmpty)
            ((c :: List.takeWhile p cs) ::
              List.splitOnP (fun c => !p c) rest)
          rw [List.filter_cons, if_pos (by simp), ← ih rest hlen]
      · rw [runsBy_cons, if_neg hp, List.splitOnP_cons, if_pos (by simp [hp]),
          List.filter_cons, if_neg (by simp)]
        exact ih cs (Nat.le_of_succ_le_succ h)

theorem runsBy_eq_splitOnP (p : Char → Bool) (l : List Char) :
    runsBy p l =
      (l.splitOnP (fun c => !p c)).filter (fun r => !r.isEmpty) :=
  runsBy_eq_splitOnP_aux p l.length l (Nat.le_refl _)

/-- C4 (amended): the query-side `tokenize` of search_engine.py returns
exactly the maximal `[a-z0-9]+` runs of the lower-cased text in order of
occurrence (`specRuns`), with empty and null input yielding the empty
sequence and no stopword removal; the indexing-side `tokenize` of
indexer.py does NOT satisfy this contract (see the counterexample): it
splits on whitespace, strips punctuation inside words, and removes its
stopword set inline. -/
theorem tokenize_spec :
    (∀ text : Option String,
      tokenize text = specRuns (normalize_text text)) ∧
    tokenize none = [] ∧ tokenize (some "") = [] ∧
    tokenizeS "the" = ["the"] := by
  refine ⟨fun text => ?_, rfl, rfl, by decide⟩
  rw [tokenize, specRuns, runsBy_eq_splitOnP]

/-- Counterexample to C4 as stated: the indexer-side tokenizer removes the
stopword `the` and does not treat punctuation as a separator, so it differs
from the maximal-run contract that the claim asserts for both sides. -/
theorem tokenize_claim_counterexample :
    Indexer.tokenize "the" = [] ∧
      specRuns (normalize_text (some "the")) = ["the"] ∧
      Indexer.tokenize "a.b" = ["ab"] ∧
      specRuns (normalize_text (some "a.b")) = ["a", "b"] ∧
      ([] : List String) ≠ ["the"] := by
  refine ⟨by decide, by decide, by decide, by decide, by decide⟩

/-! ### Claim C8: the positional index -/

theorem twpAux_filter (t : String) (ws : List (List Char)) : ∀ n : ℕ,
    ((Indexer.twpAux ws n).filter (fun tp => tp.1 = t)).map Prod.snd =
      ((ws.enumFrom n).filterMap (fun iw =>
        let tok := Indexer.normalize_token iw.2
        if tok = t ∧ tok ≠ "" ∧ ¬ Indexer.STOPWORDS.contains tok then
          some iw.1
        else none)) := by
  induction ws with
  | nil => intro n; rfl
  | cons raw rest ih =>
    intro n
    rw [List.enumFrom_cons, List.filterMap_cons]
    show ((if Indexer.normalize_token raw ≠ "" ∧
        ¬ Indexer.STOPWORDS.contains (Indexer.normalize_token raw) then
          (Indexer.normalize_token raw, n) :: Indexer.twpAux rest (n + 1)
        else Indexer.twpAux rest (n + 1)).filter
        (fun tp => tp.1 = t)).map Prod.snd = _
    by_cases hok : Indexer.normalize_token raw ≠ "" ∧
        ¬ Indexer.STOPWORDS.contains (Indexer.normalize_token raw)
    · rw [if_pos hok, List.filter_cons]
      by_cases ht : Indexer.normalize_token raw = t
      · rw [if_pos (by simpa using ht), List.map_cons, ih (n + 1)]
        have : (if Indexer.normalize_token raw = t ∧
            Indexer.normalize_token raw ≠ "" ∧
            ¬ Indexer.STOPWORDS.contains (Indexer.normalize_token raw) then
              some n else none) = some n := if_pos ⟨ht, hok⟩
        rw [this]
      · rw [if_neg (by simpa using ht), ih (n + 1)]
        have : (if Indexer.normalize_token raw = t ∧
            Indexer.normalize_token raw ≠ "" ∧
            ¬ Indexer.STOPWORDS.contains (Indexer.normalize_token raw) then
              some n else none) = none := if_neg (fun hh => ht hh.1)
        rw [this]
    · rw [if_neg hok, ih (n + 1)]
      have : (if Indexer.normalize_token raw = t ∧
          Indexer.normalize_token raw ≠ "" ∧
          ¬ Indexer.STOPWORDS.contains (Indexer.normalize_token raw) then
            some n else none) = none := if_neg (fun hh => hok hh.2)
      rw [this]

theorem twpAux_pos_lb (ws : List (List Char)) : ∀ (n : ℕ)
    (tp : String × ℕ), tp ∈ Indexer.twpAux ws n → n ≤ tp.2 := by
  induction ws with
  | nil => intro n tp h; exact absurd h (List.not_mem_nil tp)
  | cons raw rest ih =>
    intro n tp h
    revert h
    show tp ∈ (if Indexer.normalize_token raw ≠ "" ∧
        ¬ Indexer.STOPWORDS.contains (Indexer.normalize_token raw) then
          (Indexer.normalize_token raw, n) :: Indexer.twpAux rest (n + 1)
        else Indexer.twpAux rest (n + 1)) → n ≤ tp.2
    intro h
    by_cases hok : Indexer.normalize_token raw ≠ "" ∧
        ¬ Indexer.STOPWORDS.contains (Indexer.normalize_token raw)
    · rw [if_pos hok] at h
      rcases List.mem_cons.mp h with h1 | h2
      · rw [h1]
      · exact Nat.le_of_succ_le (ih (n + 1) tp h2)
    · rw [if_neg hok] at h
      exact Nat.le_of_succ_le (ih (n + 1) tp h)

theorem twpAux_pairwise (ws : List (List Char)) : ∀ n : ℕ,
    (Indexer.twpAux ws n).Pairwise (fun a b => a.2 < b.2) := by
  induction ws with
  | nil => intro n; exact List.Pairwise.nil
  | cons raw rest ih =>
    intro n
    show (if Indexer.normalize_token raw ≠ "" ∧
        ¬ Indexer.STOPWORDS.contains (Indexer.normalize_token raw) then
          (Indexer.normalize_token raw, n) :: Indexer.twpAux rest (n + 1)
        else Indexer.twpAux rest (n + 1)).Pairwise (fun a b => a.2 < b.2)
    by_cases hok : Indexer.normalize_token raw ≠ "" ∧
        ¬ Indexer.STOPWORDS.contains (Indexer.normalize_token raw)
    · rw [if_pos hok]
      exact List.Pairwise.cons
        (fun b hb => Nat.lt_of_succ_le (twpAux_pos_lb rest (n + 1) b hb))
        (ih (n + 1))
    · rw [if_neg hok]
      exact ih (n + 1)

theorem cellOf_none {idx : List (String × List (String × List ℕ))}
    {t : String} (u : String) (h : pyGet idx t = none) :
    Indexer.cellOf idx t u = none := by
  rw [Indexer.cellOf, h]; rfl

theorem cellOf_some {idx : List (String × List (String × List ℕ))}
    {t : String} {m : List (String × List ℕ)} (u : String)
    (h : pyGet idx t = some m) :
    Indexer.cellOf idx t u = pyGet m u := by
  rw [Indexer.cellOf, h]; rfl

theorem cellOf_addPos (idx : List (String × List (String × List ℕ)))
    (tok url : String) (pos : ℕ) (t u : String) :
    Indexer.cellOf (Indexer.addPos idx tok url pos) t u =
      if t = tok ∧ u = url then
        some ((Indexer.cellOf idx t u).getD [] ++ [pos])
      else Indexer.cellOf idx t u := by
  rw [Indexer.addPos]
  cases hidx : pyGet idx tok with
  | none =>
    show Indexer.cellOf (idx ++ [(tok, [(url, [pos])])]) t u = _
    by_cases ht : t = tok
    · subst ht
      rw [cellOf_none u hidx]
      have hL : pyGet (idx ++ [(t, [(url, [pos])])]) t =
          some [(url, [pos])] := by
        rw [pyGet_append, hidx, pyGet_cons, if_pos rfl]
      rw [cellOf_some u hL, pyGet_cons]
      by_cases hu : u = url
      · rw [if_pos hu, if_pos ⟨rfl, hu⟩]; rfl
      · rw [if_neg hu, if_neg (fun hh => hu hh.2), pyGet_nil]
    · rw [if_neg (fun hh => ht hh.1)]
      cases hg : pyGet idx t with
      | some m =>
        have hL : pyGet (idx ++ [(tok, [(url, [pos])])]) t = some m := by
          rw [pyGet_append, hg]
        rw [cellOf_some u hL, cellOf_some u hg]
      | none =>
        have hL : pyGet (idx ++ [(tok, [(url, [pos])])]) t = none := by
          rw [pyGet_append, hg, pyGet_cons, if_neg ht, pyGet_nil]
        rw [cellOf_none u hL, cellOf_none u hg]
  | some m =>
    show Indexer.cellOf (match pyGet m url with
      | none => pyInsert idx tok (m ++ [(url, [pos])])
      | some ps => pyInsert idx tok (pyInsert m url (ps ++ [pos]))) t u = _
    cases hm : pyGet m url with
    | none =>
      show Indexer.cellOf (pyInsert idx tok (m ++ [(url, [pos])])) t u = _
      by_cases ht : t = tok
      · subst ht
        have hL : pyGet (pyInsert idx t (m ++ [(url, [pos])])) t =
            some (m ++ [(url, [pos])]) := by
          rw [pyGet_pyInsert, if_pos rfl]
        rw [cellOf_some u hL, cellOf_some u hidx, pyGet_append]
        by_cases hu : u = url
        · subst hu
          rw [hm, if_pos ⟨rfl, rfl⟩]
          show pyGet [(u, [pos])] u = some (([] : List ℕ) ++ [pos])
          rw [pyGet_cons, if_pos rfl, List.nil_append]
        · rw [if_neg (fun hh => hu hh.2)]
          cases hg : pyGet m u with
          | some w => rfl
          | none => rw [pyGet_cons, if_neg hu, pyGet_nil]
      · have hL : pyGet (pyInsert idx tok (m ++ [(url, [pos])])) t =
            pyGet idx t := by
          rw [pyGet_pyInsert, if_neg ht]
        rw [if_neg (fun hh => ht hh.1), Indexer.cellOf, Indexer.cellOf, hL]
    | some ps =>
      show Indexer.cellOf
        (pyInsert idx tok (pyInsert m url (ps ++ [pos]))) t u = _
      by_cases ht : t = tok
      · subst ht
        have hL : pyGet (pyInsert idx t (pyInsert m url (ps ++ [pos]))) t =
            some (pyInsert m url (ps ++ [pos])) := by
          rw [pyGet_pyInsert, if_pos rfl]
        rw [cellOf_some u hL, cellOf_some u hidx, pyGet_pyInsert]
        by_cases hu : u = url
        · subst hu
          rw [if_pos rfl, if_pos ⟨rfl, rfl⟩, hm]
          rfl
        · rw [if_neg hu, if_neg (fun hh => hu hh.2)]
      · have hL : pyGet (pyInsert idx tok (pyInsert m url (ps ++ [pos]))) t =
            pyGet idx t := by
          rw [pyGet_pyInsert, if_neg ht]
        rw [if_neg (fun hh => ht hh.1), Indexer.cellOf, Indexer.cellOf, hL]

theorem appOpt_nil (o : Option (List ℕ)) : appOpt o [] = o := rfl

theorem cellOf_foldl_doc (url t u : String) (L : List (String × ℕ)) :
    ∀ idx : List (String × List (String × List ℕ)),
      Indexer.cellOf (L.foldl
          (fun acc tp => Indexer.addPos acc tp.1 url tp.2) idx) t u =
        if u = url then
          appOpt (Indexer.cellOf idx t u)
            ((L.filter (fun tp => tp.1 = t)).map Prod.snd)
        else Indexer.cellOf idx t u := by
  induction L with
  | nil =>
    intro idx
    by_cases hu : u = url
    · rw [List.foldl_nil, if_pos hu, List.filter_nil, List.map_nil,
        appOpt_nil]
    · rw [List.foldl_nil, if_neg hu]
  | cons tp rest ih =>
    intro idx
    obtain ⟨tok, pos⟩ := tp
    rw [List.foldl_cons, ih, List.filter_cons]
    by_cases hu : u = url
    · subst hu
      rw [if_pos rfl, if_pos rfl, cellOf_addPos]
      by_cases ht : t = tok
      · rw [if_pos ⟨ht, rfl⟩, if_pos (by simp [ht.symm]), List.map_cons]
        rw [appOpt, appOpt]
        by_cases ha : ((rest.filter (fun tp => tp.1 = t)).map Prod.snd) = []
        · rw [if_pos ha, if_neg (by simp), ha]
        · rw [if_neg ha, if_neg (by simp), Option.getD_some,
            List.append_assoc, List.singleton_append]
      · rw [if_neg (fun hh => ht hh.1),
          if_neg (by simpa using fun hh : tok = t => ht hh.symm)]
    · rw [if_neg hu, if_neg hu, cellOf_addPos,
        if_neg (fun hh => hu hh.2)]

theorem cellOf_foldl_docs_ne (field : Indexer.IDoc → String) (t u : String) :
    ∀ (docs : List Indexer.IDoc)
      (idx : List (String × List (String × List ℕ))),
      (∀ d ∈ docs, d.url ≠ u) →
      Indexer.cellOf (docs.foldl (fun acc d =>
        (Indexer.tokenize_with_positions (field d)).foldl
          (fun acc tp => Indexer.addPos acc tp.1 d.url tp.2) acc) idx) t u =
      Indexer.cellOf idx t u := by
  intro docs
  induction docs with
  | nil => intro idx _; rfl
  | cons d rest ih =>
    intro idx h
    rw [List.foldl_cons, ih _ (fun x hx => h x (List.mem_cons_of_mem d hx)),
      cellOf_foldl_doc,
      if_neg (fun hh : u = d.url => h d (List.mem_cons_self d rest) hh.symm)]

theorem cellOf_empty (t u : String) : Indexer.cellOf [] t u = none := rfl

theorem twp_filter_eq_wordPositions (text t : String) :
    ((Indexer.tokenize_with_positions text).filter
        (fun tp => tp.1 = t)).map Prod.snd = wordPositions text t := by
  rw [Indexer.tokenize_with_positions, twpAux_filter]
  rfl

/-- C8 (amended): for every document set with distinct URLs and every
field, the positional index maps a token `t` at a document `d` to the
ordered, strictly increasing list of the positions of `t` — where a
position is an index into the WHITESPACE-SPLIT RAW WORD sequence of the
field (counting stopwords and punctuation-only words), not into the token
sequence produced by `tokenize` (see the counterexample); the entry is
absent exactly when `t` does not occur. -/
theorem build_positional_index_spec (docs : List Indexer.IDoc)
    (field : Indexer.IDoc → String) (d : Indexer.IDoc) (t : String)
    (hnd : (docs.map Indexer.IDoc.url).Nodup) (hd : d ∈ docs) :
    Indexer.cellOf (Indexer.build_positional_index_urls docs field) t
        d.url =
      (if (wordPositions (field d) t).isEmpty then none
       else some (wordPositions (field d) t)) ∧
    (wordPositions (field d) t).Pairwise (· < ·) := by
  constructor
  · obtain ⟨pre, post, rfl⟩ := List.append_of_mem hd
    rw [List.map_append, List.map_cons] at hnd
    have hsplit := List.nodup_append.mp hnd
    have hpre : ∀ p ∈ pre, p.url ≠ d.url := by
      intro p hp heq
      exact hsplit.2.2 (heq ▸ List.mem_map_of_mem Indexer.IDoc.url hp)
        (List.mem_cons_self _ _)
    have hpost : ∀ p ∈ post, p.url ≠ d.url := by
      intro p hp heq
      have h2 := hsplit.2.1
      rw [List.nodup_cons] at h2
      exact h2.1 (heq ▸ List.mem_map_of_mem Indexer.IDoc.url hp)
    rw [Indexer.build_positional_index_urls, List.foldl_append,
      List.foldl_cons, cellOf_foldl_docs_ne field t d.url post _ hpost,
      cellOf_foldl_doc, if_pos rfl,
      cellOf_foldl_docs_ne field t d.url pre _ hpre, cellOf_empty,
      twp_filter_eq_wordPositions, appOpt]
    by_cases ha : wordPositions (field d) t = []
    · rw [if_pos ha, if_pos (by rw [ha]; rfl)]
    · rw [if_neg ha,
        if_neg (fun hh => ha (List.isEmpty_iff.mp hh)),
        Option.getD_none, List.nil_append]
  · rw [← twp_filter_eq_wordPositions]
    exact List.pairwise_map.mpr
      (((twpAux_pairwise (Indexer.pySplit (field d)) 0)).filter _)

/-- Counterexample to C8 as stated: for the title `"the cat"` the index
stores position 1 for `cat` (index into the raw whitespace-split word
sequence, where `the` occupies position 0), while the position of `cat`
within the field's tokenization (`["cat"]`) is 0. -/
theorem positional_claim_counterexample :
    Indexer.cellOf
        (Indexer.build_positional_index_urls posFixture Indexer.IDoc.title)
        "cat" "http://x/a" = some [1] ∧
      claimPositions "the cat" "cat" = [0] ∧ ([1] : List ℕ) ≠ [0] :=
  ⟨by decide, by decide, by decide⟩

/-- Witness for C8 (amended) on the single-document fixture with title
`"the cat"`. -/
theorem build_positional_index_spec_witness :
    Indexer.cellOf
        (Indexer.build_positional_index_urls posFixture Indexer.IDoc.title)
        "cat" (Indexer.IDoc.mk "http://x/a" "the cat" "").url =
      (if (wordPositions
          (Indexer.IDoc.title (Indexer.IDoc.mk "http://x/a" "the cat" ""))
          "cat").isEmpty then none
       else some (wordPositions
          (Indexer.IDoc.title (Indexer.IDoc.mk "http://x/a" "the cat" ""))
          "cat")) ∧
    (wordPositions
        (Indexer.IDoc.title (Indexer.IDoc.mk "http://x/a" "the cat" ""))
        "cat").Pairwise (· < ·) :=
  build_positional_index_spec posFixture Indexer.IDoc.title
    (Indexer.IDoc.mk "http://x/a" "the cat" "") "cat" (by decide) (by decide)

/-! ### Claim C7: origin/brand inheritance across URL variants -/

theorem storeInv_refl (store0 : List (String × DocRecord)) :
    storeInv store0 store0 :=
  fun _ r0 h => ⟨r0, h, fun _ => rfl, fun _ => rfl⟩

theorem pyGet_inheritStep_ne (store : List (String × DocRecord))
    (url key : String) (hne : key ≠ url) :
    pyGet (inheritStep store url) key = pyGet store key := by
  rw [inheritStep]
  cases pyGet store url with
  | none => rfl
  | some rc =>
    show pyGet (if canonicalize_url url = url then store else _) key = _
    by_cases hcu : canonicalize_url url = url
    · rw [if_pos hcu]
    · rw [if_neg hcu]
      cases pyGet store (canonicalize_url url) with
      | none => rfl
      | some parent =>
        show pyGet (pyInsert store url _) key = _
        rw [pyGet_pyInsert, if_neg hne]

theorem storeInv_inheritStep (store0 store : List (String × DocRecord))
    (url : String) (hinv : storeInv store0 store) :
    storeInv store0 (inheritStep store url) := by
  intro k r0 h0
  obtain ⟨r, hr, ho, hb⟩ := hinv k r0 h0
  by_cases hk : k = url
  · subst hk
    rw [inheritStep, hr]
    show ∃ rr, pyGet (if canonicalize_url k = k then store else _) k =
      some rr ∧ _
    by_cases hcu : canonicalize_url k = k
    · rw [if_pos hcu]
      exact ⟨r, hr, ho, hb⟩
    · rw [if_neg hcu]
      cases pyGet store (canonicalize_url k) with
      | none => exact ⟨r, hr, ho, hb⟩
      | some parent =>
        refine ⟨_, by rw [pyGet_pyInsert, if_pos rfl], ?_, ?_⟩
        · intro h1
          have h2 : r.origin ≠ "" := by rw [ho h1]; exact h1
          show (if r.origin = "" ∧ parent.origin ≠ "" then parent.origin
            else r.origin) = r0.origin
          rw [if_neg (fun hh => h2 hh.1), ho h1]
        · intro h1
          have h2 : r.brand ≠ "" := by rw [hb h1]; exact h1
          show (if r.brand = "" ∧ parent.brand ≠ "" then parent.brand
            else r.brand) = r0.brand
          rw [if_neg (fun hh => h2 hh.1), hb h1]
  · rw [pyGet_inheritStep_ne store url k hk]
    exact ⟨r, hr, ho, hb⟩

theorem storeInv_foldl (store0 : List (String × DocRecord))
    (ks : List String) :
    ∀ store : List (String × DocRecord), storeInv store0 store →
      storeInv store0 (ks.foldl inheritStep store) := by
  induction ks with
  | nil => intro store h; exact h
  | cons k rest ih =>
    intro store h
    exact ih _ (storeInv_inheritStep store0 store k h)

theorem pyGet_foldl_inheritStep_ne (ks : List String) :
    ∀ (store : List (String × DocRecord)) (key : String), key ∉ ks →
      pyGet (ks.foldl inheritStep store) key = pyGet store key := by
  induction ks with
  | nil => intro store key _; rfl
  | cons k rest ih =>
    intro store key hk
    rw [List.foldl_cons,
      ih _ key (fun hh => hk (List.mem_cons_of_mem k hh)),
      pyGet_inheritStep_ne store k key
        (fun hh => hk (hh ▸ List.mem_cons_self k rest))]

theorem storeStep_nodup_keys (store : List (String × DocRecord))
    (d : RawDoc) (h : (store.map Prod.fst).Nodup) :
    ((storeStep store d).map Prod.fst).Nodup := by
  rw [storeStep]
  by_cases hu : (match pyGet d "url" with
    | some (.jstr s) => s
    | _ => "") = ""
  · rw [if_pos hu]; exact h
  · rw [if_neg hu, pyInsert_keys]
    by_cases hc : (store.map Prod.fst).contains
        (match pyGet d "url" with
          | some (.jstr s) => s
          | _ => "") = true
    · rw [if_pos hc]; exact h
    · rw [if_neg hc]
      refine List.Nodup.append h (List.nodup_singleton _) ?_
      intro a ha hb
      rw [List.mem_singleton] at hb
      subst hb
      exact hc (List.elem_iff.mpr ha)

theorem buildStoreFirstPass_nodup_keys (products : List RawDoc) :
    ((buildStoreFirstPass products).map Prod.fst).Nodup := by
  rw [buildStoreFirstPass]
  have : ∀ (ps : List RawDoc) (store : List (String × DocRecord)),
      (store.map Prod.fst).Nodup →
      ((ps.foldl storeStep store).map Prod.fst).Nodup := by
    intro ps
    induction ps with
    | nil => intro store h; exact h
    | cons p rest ih =>
      intro store h
      exact ih _ (storeStep_nodup_keys store p h)
  exact this products [] List.nodup_nil

/-- C7: after `build_doc_store`, a record whose URL differs from its
canonical form and whose canonical URL is present in the first-pass store
carries the canonical record's `origin` (respectively `brand`) whenever its
own first-pass value was empty and the canonical one was not; the
canonical record keeps that value. -/
theorem build_doc_store_inherit (products : List RawDoc) (url : String)
    (rec par : DocRecord)
    (hrec : pyGet (buildStoreFirstPass products) url = some rec)
    (hcanon : canonicalize_url url ≠ url)
    (hpar : pyGet (buildStoreFirstPass products) (canonicalize_url url) =
      some par) :
    (rec.origin = "" → par.origin ≠ "" →
      (pyGet (build_doc_store products) url).map DocRecord.origin =
        some par.origin ∧
      (pyGet (build_doc_store products)
        (canonicalize_url url)).map DocRecord.origin = some par.origin) ∧
    (rec.brand = "" → par.brand ≠ "" →
      (pyGet (build_doc_store products) url).map DocRecord.brand =
        some par.brand ∧
      (pyGet (build_doc_store products)
        (canonicalize_url url)).map DocRecord.brand = some par.brand) := by
  have hfinal : build_doc_store products =
      ((buildStoreFirstPass products).map Prod.fst).foldl inheritStep
        (buildStoreFirstPass products) := rfl
  set store0 := buildStoreFirstPass products with hstore0
  have hmem : url ∈ store0.map Prod.fst :=
    List.mem_map_of_mem Prod.fst (pyGet_mem store0 url rec hrec)
  obtain ⟨l1, l2, hsplit⟩ := List.append_of_mem hmem
  have hnd := buildStoreFirstPass_nodup_keys products
  rw [← hstore0, hsplit] at hnd
  have hndparts := List.nodup_append.mp hnd
  have hnotl1 : url ∉ l1 := fun hh =>
    hndparts.2.2 hh (List.mem_cons_self url l2)
  have hnotl2 : url ∉ l2 := by
    have h2 := hndparts.2.1
    rw [List.nodup_cons] at h2
    exact h2.1
  have hinv1 : storeInv store0 (l1.foldl inheritStep store0) :=
    storeInv_foldl store0 l1 store0 (storeInv_refl store0)
  obtain ⟨rcC, hrcC, hoC, hbC⟩ := hinv1 (canonicalize_url url) par hpar
  have hs1url : pyGet (l1.foldl inheritStep store0) url = some rec := by
    rw [pyGet_foldl_inheritStep_ne l1 store0 url hnotl1]
    exact hrec
  have hget_step : pyGet (inheritStep (l1.foldl inheritStep store0) url)
      url = some
      { rec with
        origin := if rec.origin = "" ∧ rcC.origin ≠ "" then rcC.origin
          else rec.origin
        brand := if rec.brand = "" ∧ rcC.brand ≠ "" then rcC.brand
          else rec.brand } := by
    rw [inheritStep, hs1url]
    show pyGet (if canonicalize_url url = url then _ else _) url = _
    rw [if_neg hcanon, hrcC]
    show pyGet (pyInsert (l1.foldl inheritStep store0) url _) url = _
    rw [pyGet_pyInsert, if_pos rfl]
  have hgetF : pyGet (build_doc_store products) url = some
      { rec with
        origin := if rec.origin = "" ∧ rcC.origin ≠ "" then rcC.origin
          else rec.origin
        brand := if rec.brand = "" ∧ rcC.brand ≠ "" then rcC.brand
          else rec.brand } := by
    rw [hfinal, hsplit, List.foldl_append, List.foldl_cons,
      pyGet_foldl_inheritStep_ne l2 _ url hnotl2]
    exact hget_step
  have hinvF : storeInv store0 (build_doc_store products) := by
    rw [hfinal]
    exact storeInv_foldl store0 _ store0 (storeInv_refl store0)
  obtain ⟨pc, hpc, hpco, hpcb⟩ := hinvF (canonicalize_url url) par hpar
  constructor
  · intro hro hpo
    have hrco : rcC.origin = par.origin := hoC hpo
    constructor
    · rw [hgetF]
      show some (if rec.origin = "" ∧ rcC.origin ≠ "" then rcC.origin
        else rec.origin) = some par.origin
      rw [if_pos ⟨hro, by rw [hrco]; exact hpo⟩, hrco]
    · rw [hpc]
      show some pc.origin = some par.origin
      rw [hpco hpo]
  · intro hrb hpb
    have hrcb : rcC.brand = par.brand := hbC hpb
    constructor
    · rw [hgetF]
      show some (if rec.brand = "" ∧ rcC.brand ≠ "" then rcC.brand
        else rec.brand) = some par.brand
      rw [if_pos ⟨hrb, by rw [hrcb]; exact hpb⟩, hrcb]
    · rw [hpc]
      show some pc.brand = some par.brand
      rw [hpcb hpb]

/-- Witness for C7 on the two-record scenario of the spec: the variant
`http://x/product/1?variant=2` inherits the brand `Acme` from
`http://x/product/1`. -/
theorem build_doc_store_inherit_witness :
    (pyGet (build_doc_store inheritFixture)
        "http://x/product/1?variant=2").map DocRecord.brand =
      some "Acme" := by
  have h := (build_doc_store_inherit inheritFixture
      "http://x/product/1?variant=2"
      ⟨"http://x/product/1?variant=2", "http://x/product/1?variant=2",
        "", "", "", "", 0, 0⟩
      ⟨"http://x/product/1", "http://x/product/1", "", "", "", "Acme",
        0, 0⟩
      (by decide) (by decide) (by decide)).2 (by decide) (by decide)
  exact h.1

/-! ### Claim C3: sortedness, deduplication and truncation of results -/

theorem mem_insertDesc (x z : String × ℚ) (l : List (String × ℚ)) :
    z ∈ insertDesc x l ↔ z = x ∨ z ∈ l := by
  induction l with
  | nil => simp [insertDesc]
  | cons y ys ih =>
    show z ∈ (if x.2 < y.2 then y :: insertDesc x ys else x :: y :: ys) ↔ _
    by_cases h : x.2 < y.2
    · rw [if_pos h]
      simp only [List.mem_cons, ih]
      tauto
    · rw [if_neg h]
      simp only [List.mem_cons]

theorem insertDesc_sorted (x : String × ℚ) (l : List (String × ℚ))
    (h : l.Pairwise (fun a b => b.2 ≤ a.2)) :
    (insertDesc x l).Pairwise (fun a b => b.2 ≤ a.2) := by
  induction l with
  | nil => simp [insertDesc]
  | cons y ys ih =>
    rw [List.pairwise_cons] at h
    show (if x.2 < y.2 then y :: insertDesc x ys else x :: y :: ys).Pairwise _
    by_cases hxy : x.2 < y.2
    · rw [if_pos hxy]
      refine List.Pairwise.cons (fun z hz => ?_) (ih h.2)
      rcases (mem_insertDesc x z ys).mp hz with rfl | hz
      · exact le_of_lt hxy
      · exact h.1 z hz
    · rw [if_neg hxy]
      refine List.Pairwise.cons (fun z hz => ?_)
        (List.Pairwise.cons h.1 h.2)
      rcases List.mem_cons.mp hz with rfl | hz
      · exact le_of_not_lt hxy
      · exact le_trans (h.1 z hz) (le_of_not_lt hxy)

theorem sortDesc_sorted (l : List (String × ℚ)) :
    (sortDesc l).Pairwise (fun a b => b.2 ≤ a.2) := by
  induction l with
  | nil => exact List.Pairwise.nil
  | cons x xs ih => exact insertDesc_sorted x (sortDesc xs) ih

theorem insertDesc_perm (x : String × ℚ) (l : List (String × ℚ)) :
    (insertDesc x l).Perm (x :: l) := by
  induction l with
  | nil => exact List.Perm.refl _
  | cons y ys ih =>
    show (if x.2 < y.2 then y :: insertDesc x ys else x :: y :: ys).Perm _
    by_cases h : x.2 < y.2
    · rw [if_pos h]
      exact (ih.cons y).trans (List.Perm.swap x y ys)
    · rw [if_neg h]

theorem sortDesc_perm (l : List (String × ℚ)) : (sortDesc l).Perm l := by
  induction l with
  | nil => exact List.Perm.refl _
  | cons x xs ih =>
    exact (insertDesc_perm x (sortDesc xs)).trans (ih.cons x)

theorem dedupCanon_sublist (l : List (String × ℚ)) :
    ∀ seen : List String, (dedupCanon l seen).Sublist l := by
  induction l with
  | nil => intro seen; exact List.Sublist.refl _
  | cons e rest ih =>
    intro seen
    show (if seen.contains (canonicalize_url e.1) then dedupCanon rest seen
      else e :: dedupCanon rest (canonicalize_url e.1 :: seen)).Sublist _
    by_cases h : seen.contains (canonicalize_url e.1)
    · rw [if_pos h]
      exact (ih seen).cons e
    · rw [if_neg h]
      exact (ih _).cons₂ e

theorem dedupCanon_canon_notin (l : List (String × ℚ)) :
    ∀ (seen : List String) (e : String × ℚ), e ∈ dedupCanon l seen →
      canonicalize_url e.1 ∉ seen := by
  induction l with
  | nil => intro seen e h; exact absurd h (List.not_mem_nil e)
  | cons x rest ih =>
    intro seen e h
    revert h
    show e ∈ (if seen.contains (canonicalize_url x.1) then
        dedupCanon rest seen
      else x :: dedupCanon rest (canonicalize_url x.1 :: seen)) → _
    intro h
    by_cases hc : seen.contains (canonicalize_url x.1)
    · rw [if_pos hc] at h
      exact ih seen e h
    · rw [if_neg hc] at h
      rcases List.mem_cons.mp h with rfl | h2
      · exact fun hh => hc (List.elem_iff.mpr hh)
      · intro hh
        exact ih _ e h2 (List.mem_cons_of_mem _ hh)

theorem dedupCanon_pairwise (l : List (String × ℚ)) :
    ∀ seen : List String,
      (dedupCanon l seen).Pairwise
        (fun a b => canonicalize_url a.1 ≠ canonicalize_url b.1) := by
  induction l with
  | nil => intro seen; exact List.Pairwise.nil
  | cons x rest ih =>
    intro seen
    show (if seen.contains (canonicalize_url x.1) then dedupCanon rest seen
      else x :: dedupCanon rest (canonicalize_url x.1 :: seen)).Pairwise _
    by_cases hc : seen.contains (canonicalize_url x.1)
    · rw [if_pos hc]
      exact ih seen
    · rw [if_neg hc]
      refine List.Pairwise.cons (fun z hz heq => ?_) (ih _)
      exact dedupCanon_canon_notin rest _ z hz
        (heq ▸ List.mem_cons_self _ _)

theorem dedupCanon_max (l : List (String × ℚ))
    (hsort : l.Pairwise (fun a b => b.2 ≤ a.2)) :
    ∀ (seen : List String) (e : String × ℚ), e ∈ dedupCanon l seen →
      ∀ p ∈ l, canonicalize_url p.1 = canonicalize_url e.1 →
        p.2 ≤ e.2 := by
  induction l with
  | nil => intro seen e h; exact absurd h (List.not_mem_nil e)
  | cons x rest ih =>
    rw [List.pairwise_cons] at hsort
    intro seen e he p hp hcanon
    revert he
    show e ∈ (if seen.contains (canonicalize_url x.1) then
        dedupCanon rest seen
      else x :: dedupCanon rest (canonicalize_url x.1 :: seen)) → _
    intro he
    by_cases hc : seen.contains (canonicalize_url x.1)
    · rw [if_pos hc] at he
      rcases List.mem_cons.mp hp with rfl | hp2
      · exact absurd (hcanon ▸ List.elem_iff.mp hc)
          (dedupCanon_canon_notin rest seen e he)
      · exact ih hsort.2 seen e he p hp2 hcanon
    · rw [if_neg hc] at he
      rcases List.mem_cons.mp he with rfl | he2
      · rcases List.mem_cons.mp hp with rfl | hp2
        · exact le_refl _
        · exact hsort.1 p hp2
      · rcases List.mem_cons.mp hp with rfl | hp2
        · exact absurd (List.mem_cons_self _ _)
            (hcanon ▸ dedupCanon_canon_notin rest _ e he2)
        · exact ih hsort.2 _ e he2 p hp2 hcanon

theorem search_documents_eq (logf : ℚ → ℚ) (query : String)
    (doc_store : List (String × DocRecord)) (stopwords : Finset String)
    (synonyms : List (String × List String)) (ti di oi bi : Idx)
    (top_k : ℕ) :
    (search logf query doc_store stopwords synonyms ti di oi bi
        top_k).documents =
      ((dedupCanon (sortDesc (searchScored logf query doc_store stopwords
          synonyms ti di oi bi)) []).take top_k).filterMap
        (fun e => (pyGet doc_store e.1).map (fun d =>
          { title := d.title
            url := d.url
            description := d.description
            score := e.2
            origin := d.origin
            brand := d.brand
            avg_rating := d.avg_rating
            review_count := d.review_count : ResultEntry })) := rfl

/-- C3: for every query and every document store satisfying the store
invariant (each record's `url` equals its key), the `documents` array
returned by `search` has pairwise distinct query-stripped canonical URLs,
holds at most `top_k` entries in non-increasing score order, and every
surviving entry dominates the scores of all scored candidates sharing its
canonical URL. -/
theorem search_result_invariants (logf : ℚ → ℚ) (query : String)
    (doc_store : List (String × DocRecord)) (stopwords : Finset String)
    (synonyms : List (String × List String)) (ti di oi bi : Idx)
    (top_k : ℕ) (hstore : ∀ e ∈ doc_store, e.2.url = e.1) :
    (search logf query doc_store stopwords synonyms ti di oi bi
        top_k).documents.Pairwise
      (fun r1 r2 => canonicalize_url r1.url ≠ canonicalize_url r2.url) ∧
    (search logf query doc_store stopwords synonyms ti di oi bi
        top_k).documents.length ≤ top_k ∧
    (search logf query doc_store stopwords synonyms ti di oi bi
        top_k).documents.Pairwise (fun r1 r2 => r2.score ≤ r1.score) ∧
    (∀ p ∈ searchScored logf query doc_store stopwords synonyms ti di oi
        bi,
      ∀ r ∈ (search logf query doc_store stopwords synonyms ti di oi bi
        top_k).documents,
        canonicalize_url p.1 = canonicalize_url r.url → p.2 ≤ r.score) := by
  rw [search_documents_eq]
  have hurl : ∀ (e : String × ℚ) (r : ResultEntry),
      ((pyGet doc_store e.1).map (fun d =>
        { title := d.title
          url := d.url
          description := d.description
          score := e.2
          origin := d.origin
          brand := d.brand
          avg_rating := d.avg_rating
          review_count := d.review_count : ResultEntry })) = some r →
      r.url = e.1 ∧ r.score = e.2 := by
    intro e r hm
    cases hdd : pyGet doc_store e.1 with
    | none => rw [hdd] at hm; exact absurd hm (by simp)
    | some d =>
      rw [hdd] at hm
      have := Option.some.inj hm
      have hd : d.url = e.1 := hstore (e.1, d) (pyGet_mem _ _ _ hdd)
      refine ⟨?_, ?_⟩
      · rw [← this]; exact hd
      · rw [← this]
  have hDsub := dedupCanon_sublist
    (sortDesc (searchScored logf query doc_store stopwords synonyms ti di
      oi bi)) []
  have hTsubD := List.take_sublist top_k
    (dedupCanon (sortDesc (searchScored logf query doc_store stopwords
      synonyms ti di oi bi)) [])
  refine ⟨?_, ?_, ?_, ?_⟩
  · refine List.pairwise_filterMap.mpr ?_
    refine ((dedupCanon_pairwise _ []).sublist hTsubD).imp ?_
    intro a b hab r hr r' hr'
    rw [(hurl a r (Option.mem_def.mp hr)).1,
      (hurl b r' (Option.mem_def.mp hr')).1]
    exact hab
  · exact le_trans (List.length_filterMap_le _ _) (List.length_take_le _ _)
  · refine List.pairwise_filterMap.mpr ?_
    have hsorted := (sortDesc_sorted (searchScored logf query doc_store
      stopwords synonyms ti di oi bi)).sublist
      (hTsubD.trans hDsub)
    refine hsorted.imp ?_
    intro a b hab r hr r' hr'
    rw [(hurl a r (Option.mem_def.mp hr)).2,
      (hurl b r' (Option.mem_def.mp hr')).2]
    exact hab
  · intro p hp r hr hcanon
    obtain ⟨e, heT, hfe⟩ := List.mem_filterMap.mp hr
    obtain ⟨hru, hrs⟩ := hurl e r hfe
    rw [hru] at hcanon
    rw [hrs]
    exact dedupCanon_max _ (sortDesc_sorted _) [] e (hTsubD.subset heT) p
      ((sortDesc_perm _).mem_iff.mpr hp) hcanon

/-- Witness for C3 on a one-record store satisfying the store invariant. -/
theorem search_result_invariants_witness :
    ((search (fun _ => 0) "a" storeFixture get_default_stopwords []
        idxFixture [] [] [] 10).documents.Pairwise
      (fun r1 r2 => canonicalize_url r1.url ≠ canonicalize_url r2.url)) ∧
    (search (fun _ => 0) "a" storeFixture get_default_stopwords []
        idxFixture [] [] [] 10).documents.length ≤ 10 :=
  have h := search_result_invariants (fun _ => 0) "a" storeFixture
    get_default_stopwords [] idxFixture [] [] [] 10 (by decide)
  ⟨h.1, h.2.1⟩

/-! ### Claim C10: canonicalize_url and idempotence -/

theorem removeUnsafe_eq_self (l : List Char) (h : cleanL l) :
    removeUnsafe l = l :=
  List.filter_eq_self.mpr (fun c hc => by rw [h c hc]; rfl)

theorem cleanL_removeUnsafe (l : List Char) : cleanL (removeUnsafe l) := by
  intro c hc
  rw [removeUnsafe] at hc
  have := List.of_mem_filter hc
  simpa using this

theorem takeWhile_append_stop (q : Char → Bool) (xs : List Char) (y : Char)
    (r : List Char) (hxs : ∀ x ∈ xs, q x = true) (hy : q y = false) :
    (xs ++ y :: r).takeWhile q = xs ∧ (xs ++ y :: r).dropWhile q = y :: r := by
  induction xs with
  | nil =>
    constructor
    · rw [List.nil_append, List.takeWhile_cons_of_neg (by rw [hy]; simp)]
    · rw [List.nil_append, List.dropWhile_cons_of_neg (by rw [hy]; simp)]
  | cons x xs ih =>
    have hx : q x = true := hxs x (List.mem_cons_self x xs)
    have ih2 := ih (fun z hz => hxs z (List.mem_cons_of_mem x hz))
    constructor
    · rw [List.cons_append, List.takeWhile_cons_of_pos hx, ih2.1]
    · rw [List.cons_append, List.dropWhile_cons_of_pos hx, ih2.2]

theorem takeWhile_all_of (q : Char → Bool) (xs : List Char)
    (hxs : ∀ x ∈ xs, q x = true) :
    xs.takeWhile q = xs ∧ xs.dropWhile q = [] := by
  induction xs with
  | nil => exact ⟨rfl, rfl⟩
  | cons x xs ih =>
    have hx : q x = true := hxs x (List.mem_cons_self x xs)
    have ih2 := ih (fun z hz => hxs z (List.mem_cons_of_mem x hz))
    constructor
    · rw [List.takeWhile_cons_of_pos hx, ih2.1]
    · rw [List.dropWhile_cons_of_pos hx, ih2.2]

theorem splitOnFirst_of_not_mem (ch : Char) (l : List Char)
    (h : ∀ c ∈ l, c ≠ ch) : splitOnFirst ch l = (l, []) := by
  rw [splitOnFirst]
  have := takeWhile_all_of (fun c => decide (c ≠ ch)) l
    (fun c hc => by simpa using h c hc)
  rw [this.1, this.2]
  rfl

theorem schemeOk_iff (l : List Char) :
    schemeOk l = true ↔
      ((l.takeWhile (fun c => c ≠ ':')).length < l.length ∧
        l.takeWhile (fun c => c ≠ ':') ≠ [] ∧
        (∃ c, l.head? = some c ∧ c ∈ asciiAlpha) ∧
        ∀ x ∈ l.takeWhile (fun c => c ≠ ':'), x ∈ schemeChars) := by
  rw [schemeOk]
  cases hh : l.head? with
  | none =>
    simp [hh, List.isEmpty_iff, List.all_eq_true]
  | some c =>
    simp [hh, List.isEmpty_iff, List.all_eq_true]
    tauto

theorem schemeOk_eq_false_of (l : List Char)
    (h : ¬ ((l.takeWhile (fun c => c ≠ ':')).length < l.length ∧
        l.takeWhile (fun c => c ≠ ':') ≠ [] ∧
        (∃ c, l.head? = some c ∧ c ∈ asciiAlpha) ∧
        ∀ x ∈ l.takeWhile (fun c => c ≠ ':'), x ∈ schemeChars)) :
    schemeOk l = false := by
  cases hb : schemeOk l
  · rfl
  · exact absurd ((schemeOk_iff l).mp hb) h

theorem schemeOk_head_bad (l : List Char) (c : Char) (hl : l.head? = some c)
    (hc : c ∉ asciiAlpha) : schemeOk l = false := by
  refine schemeOk_eq_false_of l (fun hh => ?_)
  obtain ⟨c', hc', hmem⟩ := hh.2.2.1
  rw [hl] at hc'
  exact hc ((Option.some.inj hc') ▸ hmem)

theorem splitScheme_of_not_ok (l : List Char) (h : schemeOk l = false) :
    splitScheme l = ([], l) := by
  rw [splitScheme, if_neg (by rw [h]; exact Bool.false_ne_true)]

theorem dropWhile_head_false (q : Char → Bool) (l : List Char) (d : Char)
    (dw : List Char) (h : l.dropWhile q = d :: dw) : q d = false := by
  induction l with
  | nil => simp at h
  | cons x xs ih =>
    by_cases hx : q x
    · rw [List.dropWhile_cons_of_pos hx] at h
      exact ih h
    · rw [List.dropWhile_cons_of_neg hx] at h
      injection h with h1 h2
      subst h1
      simpa using hx

theorem schemeOk_of_append (p t : List Char) (h : schemeOk p = true) :
    schemeOk (p ++ t) = true := by
  obtain ⟨hlen, hne, ⟨c, hc, halpha⟩, hall⟩ := (schemeOk_iff p).mp h
  have hsplit := List.takeWhile_append_dropWhile
    (fun c => decide (c ≠ ':')) p
  have hdw : p.dropWhile (fun c => decide (c ≠ ':')) ≠ [] := by
    intro hh
    rw [hh, List.append_nil] at hsplit
    rw [hsplit] at hlen
    exact lt_irrefl _ hlen
  obtain ⟨d, dw, hd⟩ := List.exists_cons_of_ne_nil hdw
  have hdcolon : d = ':' := by
    have := dropWhile_head_false (fun c => decide (c ≠ ':')) p d dw hd
    simpa using this
  subst hdcolon
  have hptw : p = p.takeWhile (fun c => decide (c ≠ ':')) ++ ':' :: dw := by
    rw [← hd, hsplit]
  have htwmem : ∀ x ∈ p.takeWhile (fun c => decide (c ≠ ':')),
      (fun c => decide (c ≠ ':')) x = true :=
    fun x hx =>
      @List.mem_takeWhile_imp Char (fun c => decide (c ≠ ':')) p x hx
  have htw2 := takeWhile_append_stop (fun c => decide (c ≠ ':'))
    (p.takeWhile (fun c => decide (c ≠ ':'))) ':' (dw ++ t)
    htwmem (by decide)
  have hpt : p ++ t =
      p.takeWhile (fun c => decide (c ≠ ':')) ++ ':' :: (dw ++ t) := by
    conv_lhs => rw [hptw]
    simp [List.append_assoc]
  refine (schemeOk_iff (p ++ t)).mpr ?_
  refine ⟨?_, ?_, ?_, ?_⟩
  · rw [hpt, htw2.1]
    simp only [List.length_append, List.length_cons]
    omega
  · rw [hpt, htw2.1]
    exact hne
  · refine ⟨c, ?_, halpha⟩
    have hpne : p ≠ [] := by
      intro hh
      rw [hh] at hc
      exact Option.noConfusion hc
    obtain ⟨c₀, p₂, rfl⟩ := List.exists_cons_of_ne_nil hpne
    rw [List.head?_cons] at hc
    rw [List.cons_append, List.head?_cons, hc]
  · rw [hpt, htw2.1]
    exact hall

theorem splitScheme_valid (sch r0 : List Char) (hv : SchemeValid sch) :
    splitScheme (sch ++ ':' :: r0) = (sch, r0) := by
  obtain ⟨hchars, c₀, rest, hcons, halpha⟩ := hv
  have hnocolon : ∀ x ∈ sch, (fun c => decide (c ≠ ':')) x = true := by
    intro x hx
    have hmem := hchars x hx
    have hfact : ∀ c ∈ schemeLowerChars, c ≠ ':' := by decide
    simpa using hfact x hmem
  have htw := takeWhile_append_stop (fun c => decide (c ≠ ':')) sch ':' r0
    hnocolon (by decide)
  have hok : schemeOk (sch ++ ':' :: r0) = true := by
    refine (schemeOk_iff _).mpr ⟨?_, ?_, ?_, ?_⟩
    · rw [htw.1]
      simp [List.length_append]
    · rw [htw.1, hcons]
      exact List.cons_ne_nil c₀ rest
    · refine ⟨c₀, ?_, ?_⟩
      · rw [hcons, List.cons_append, List.head?_cons]
      · have hfact : ∀ c ∈ lowerAlphaChars, c ∈ asciiAlpha := by decide
        exact hfact c₀ halpha
    · rw [htw.1]
      intro x hx
      have hfact : ∀ c ∈ schemeLowerChars, c ∈ schemeChars := by decide
      exact hfact x (hchars x hx)
  rw [splitScheme, if_pos hok, htw.1, htw.2, List.tail_cons]
  have hmap : sch.map pyLower = sch := by
    have hid : ∀ c ∈ schemeLowerChars, pyLower c = c := by decide
    calc sch.map pyLower = sch.map id :=
          List.map_congr_left (fun x hx => hid x (hchars x hx))
      _ = sch := List.map_id sch
  rw [hmap]

theorem splitNetloc_recover (nl p : List Char)
    (hnl : ∀ c ∈ nl, isNetlocDelim c = false)
    (hp : p = [] ∨ ∃ ps, p = '/' :: ps) :
    splitNetloc (nl ++ p) = (nl, p) := by
  rw [splitNetloc]
  rcases hp with rfl | ⟨ps, rfl⟩
  · have := takeWhile_all_of (fun c => !isNetlocDelim c) nl
      (fun c hc => by simp [hnl c hc])
    rw [List.append_nil, this.1, this.2]
  · have := takeWhile_append_stop (fun c => !isNetlocDelim c) nl '/' ps
      (fun c hc => by simp [hnl c hc]) (by decide)
    rw [this.1, this.2]

theorem urlsplit_def (l : List Char) :
    urlsplit l =
      ⟨(splitScheme (removeUnsafe l)).1,
        (if (splitScheme (removeUnsafe l)).2.take 2 = ['/', '/'] then
            splitNetloc ((splitScheme (removeUnsafe l)).2.drop 2)
          else ([], (splitScheme (removeUnsafe l)).2)).1,
        (splitOnFirst '?'
          ((splitOnFirst '#'
            ((if (splitScheme (removeUnsafe l)).2.take 2 = ['/', '/'] then
                splitNetloc ((splitScheme (removeUnsafe l)).2.drop 2)
              else ([], (splitScheme (removeUnsafe l)).2)).2)).1)).1,
        (splitOnFirst '?'
          ((splitOnFirst '#'
            ((if (splitScheme (removeUnsafe l)).2.take 2 = ['/', '/'] then
                splitNetloc ((splitScheme (removeUnsafe l)).2.drop 2)
              else ([], (splitScheme (removeUnsafe l)).2)).2)).1)).2,
        (splitOnFirst '#'
          ((if (splitScheme (removeUnsafe l)).2.take 2 = ['/', '/'] then
              splitNetloc ((splitScheme (removeUnsafe l)).2.drop 2)
            else ([], (splitScheme (removeUnsafe l)).2)).2)).2⟩ := rfl

theorem urlsplit_compute (l u0 sch rest nl rest2 : List Char)
    (h0 : removeUnsafe l = u0)
    (h1 : splitScheme u0 = (sch, rest))
    (h2 : (if rest.take 2 = ['/', '/'] then splitNetloc (rest.drop 2)
      else ([], rest)) = (nl, rest2))
    (h3 : ∀ c ∈ rest2, c ≠ '#' ∧ c ≠ '?') :
    urlsplit l = ⟨sch, nl, rest2, [], []⟩ := by
  have hfr : splitOnFirst '#' rest2 = (rest2, []) :=
    splitOnFirst_of_not_mem _ _ (fun c hc => (h3 c hc).1)
  have hqr : splitOnFirst '?' rest2 = (rest2, []) :=
    splitOnFirst_of_not_mem _ _ (fun c hc => (h3 c hc).2)
  rw [urlsplit_def, h0, h1]
  dsimp only
  rw [h2]
  dsimp only
  rw [hfr]
  dsimp only
  rw [hqr]

theorem schemeOk_nil : schemeOk [] = false := rfl

theorem isNetlocDelim_cases (c : Char) (h : isNetlocDelim c = true) :
    c = '/' ∨ c = '?' ∨ c = '#' := by
  rw [isNetlocDelim] at h
  simpa using h

theorem takeWhile_head_eq (q : Char → Bool) (l : List Char) (p0 : Char)
    (pre : List Char) (h : l.takeWhile q = p0 :: pre) : l.head? = some p0 := by
  cases l with
  | nil => simp at h
  | cons x xs =>
    by_cases hx : q x
    · rw [List.takeWhile_cons_of_pos hx] at h
      injection h with h1 _
      rw [List.head?_cons, h1]
    · rw [List.takeWhile_cons_of_neg hx] at h
      simp at h

theorem splitScheme_fst_valid (l : List Char) :
    (splitScheme l).1 = [] ∨ SchemeValid (splitScheme l).1 := by
  by_cases hok : schemeOk l = true
  · right
    rw [splitScheme, if_pos hok]
    obtain ⟨hlen, hne, ⟨c, hc, halpha⟩, hall⟩ := (schemeOk_iff l).mp hok
    constructor
    · intro x hx
      rw [List.mem_map] at hx
      obtain ⟨y, hy, hxy⟩ := hx
      have hys := hall y hy
      have hfact : ∀ y ∈ schemeChars, pyLower y ∈ schemeLowerChars := by decide
      exact hxy ▸ hfact y hys
    · obtain ⟨p0, pre', hpre⟩ := List.exists_cons_of_ne_nil hne
      have hhd := takeWhile_head_eq _ l p0 pre' hpre
      rw [hc] at hhd
      have hp0 : p0 = c := (Option.some.inj hhd).symm
      refine ⟨pyLower p0, pre'.map pyLower, ?_, ?_⟩
      · rw [hpre, List.map_cons]
      · have hfact : ∀ c ∈ asciiAlpha, pyLower c ∈ lowerAlphaChars := by decide
        rw [hp0]
        exact hfact c halpha
  · left
    have hokf : schemeOk l = false := by
      revert hok
      cases schemeOk l <;> simp
    rw [splitScheme_of_not_ok l hokf]

theorem splitScheme_snd_subset (l : List Char) : (splitScheme l).2 ⊆ l := by
  by_cases hok : schemeOk l = true
  · rw [splitScheme, if_pos hok]
    exact List.Subset.trans (List.tail_subset _)
      (List.dropWhile_sublist _).subset
  · have hokf : schemeOk l = false := by
      revert hok
      cases schemeOk l <;> simp
    rw [splitScheme_of_not_ok l hokf]
    exact fun x hx => hx

theorem splitNetloc_slash (p : List Char) :
    splitNetloc ('/' :: p) = ([], '/' :: p) := by
  rw [splitNetloc, List.takeWhile_cons_of_neg (by decide),
    List.dropWhile_cons_of_neg (by decide)]

theorem cleanL_nil : cleanL [] := fun c hc => absurd hc (List.not_mem_nil c)

theorem cleanL_cons (c : Char) (l : List Char) (hc : isUnsafeUrlChar c = false)
    (hl : cleanL l) : cleanL (c :: l) := by
  intro x hx
  rcases List.mem_cons.mp hx with h | h
  · rw [h]; exact hc
  · exact hl x h

theorem cleanL_append (a b : List Char) (ha : cleanL a) (hb : cleanL b) :
    cleanL (a ++ b) := by
  intro x hx
  rcases List.mem_append.mp hx with h | h
  · exact ha x h
  · exact hb x h

theorem cleanL_scheme (sch : List Char) (hv : SchemeValid sch) :
    cleanL sch := by
  intro c hc
  have hmem := hv.1 c hc
  have hfact : ∀ c ∈ schemeLowerChars, isUnsafeUrlChar c = false := by decide
  exact hfact c hmem

theorem urlsplit_scheme_eq (l : List Char) :
    (urlsplit l).scheme = (splitScheme (removeUnsafe l)).1 := rfl

theorem urlsplit_parts (l : List Char) :
    ∃ sch rest nl rest2,
      splitScheme (removeUnsafe l) = (sch, rest) ∧
      ((rest.take 2 = ['/', '/'] ∧ splitNetloc (rest.drop 2) = (nl, rest2)) ∨
        (rest.take 2 ≠ ['/', '/'] ∧ nl = [] ∧ rest2 = rest)) ∧
      urlsplit l = ⟨sch, nl,
        (rest2.takeWhile (fun c => c ≠ '#')).takeWhile (fun c => c ≠ '?'),
        ((rest2.takeWhile (fun c => c ≠ '#')).dropWhile (fun c => c ≠ '?')).tail,
        (rest2.dropWhile (fun c => c ≠ '#')).tail⟩ := by
  rcases hss : splitScheme (removeUnsafe l) with ⟨sch, rest⟩
  by_cases hb : rest.take 2 = ['/', '/']
  · rcases hnn : splitNetloc (rest.drop 2) with ⟨nl, rest2⟩
    refine ⟨sch, rest, nl, rest2, rfl, Or.inl ⟨hb, hnn⟩, ?_⟩
    rw [urlsplit_def, hss]
    dsimp only
    rw [if_pos hb, hnn]
    rfl
  · refine ⟨sch, rest, [], rest, rfl, Or.inr ⟨hb, rfl, rfl⟩, ?_⟩
    rw [urlsplit_def, hss]
    dsimp only
    rw [if_neg hb]
    rfl

theorem urlsplit_scheme_valid (l : List Char) :
    (urlsplit l).scheme = [] ∨ SchemeValid (urlsplit l).scheme := by
  rw [urlsplit_scheme_eq]
  exact splitScheme_fst_valid _

theorem urlsplit_netloc_no_delim (l : List Char) :
    ∀ c ∈ (urlsplit l).netloc, isNetlocDelim c = false := by
  obtain ⟨sch, rest, nl, rest2, hss, hbr, hU⟩ := urlsplit_parts l
  rw [hU]
  dsimp only
  intro c hc
  rcases hbr with ⟨hb, hnn⟩ | ⟨hb, hnl, hr2⟩
  · rw [splitNetloc] at hnn
    injection hnn with h1 h2
    rw [← h1] at hc
    have := @List.mem_takeWhile_imp Char (fun c => !isNetlocDelim c)
      (rest.drop 2) c hc
    simpa using this
  · rw [hnl] at hc
    exact absurd hc (List.not_mem_nil c)

theorem urlsplit_path_no_qf (l : List Char) :
    ∀ c ∈ (urlsplit l).path, c ≠ '#' ∧ c ≠ '?' := by
  obtain ⟨sch, rest, nl, rest2, hss, hbr, hU⟩ := urlsplit_parts l
  rw [hU]
  dsimp only
  intro c hc
  have h1 := @List.mem_takeWhile_imp Char (fun c => decide (c ≠ '?'))
    (rest2.takeWhile (fun c => decide (c ≠ '#'))) c hc
  have hc2 := (List.takeWhile_sublist _).subset hc
  have h2 := @List.mem_takeWhile_imp Char (fun c => decide (c ≠ '#'))
    rest2 c hc2
  exact ⟨by simpa using h2, by simpa using h1⟩

theorem urlsplit_netloc_subset (l : List Char) :
    (urlsplit l).netloc ⊆ removeUnsafe l := by
  obtain ⟨sch, rest, nl, rest2, hss, hbr, hU⟩ := urlsplit_parts l
  have hrest : rest ⊆ removeUnsafe l := by
    have := splitScheme_snd_subset (removeUnsafe l)
    rw [hss] at this
    exact this
  rw [hU]
  dsimp only
  rcases hbr with ⟨hb, hnn⟩ | ⟨hb, hnl, hr2⟩
  · rw [splitNetloc] at hnn
    injection hnn with h1 h2
    intro c hc
    rw [← h1] at hc
    have hc2 := (List.takeWhile_sublist _).subset hc
    have hc3 := (List.drop_sublist _ _).subset hc2
    exact hrest hc3
  · rw [hnl]
    intro c hc
    exact absurd hc (List.not_mem_nil c)

theorem urlsplit_path_subset (l : List Char) :
    (urlsplit l).path ⊆ removeUnsafe l := by
  obtain ⟨sch, rest, nl, rest2, hss, hbr, hU⟩ := urlsplit_parts l
  have hrest : rest ⊆ removeUnsafe l := by
    have := splitScheme_snd_subset (removeUnsafe l)
    rw [hss] at this
    exact this
  have hrest2 : rest2 ⊆ removeUnsafe l := by
    rcases hbr with ⟨hb, hnn⟩ | ⟨hb, hnl, hr2⟩
    · rw [splitNetloc] at hnn
      injection hnn with h1 h2
      intro c hc
      rw [← h2] at hc
      have hc2 := (List.dropWhile_sublist _).subset hc
      have hc3 := (List.drop_sublist _ _).subset hc2
      exact hrest hc3
    · rw [hr2]
      exact hrest
  rw [hU]
  dsimp only
  intro c hc
  have hc2 := (List.takeWhile_sublist _).subset hc
  have hc3 := (List.takeWhile_sublist _).subset hc2
  exact hrest2 hc3

theorem urlsplit_netloc_clean (l : List Char) : cleanL (urlsplit l).netloc :=
  fun c hc => cleanL_removeUnsafe l c (urlsplit_netloc_subset l hc)

theorem urlsplit_path_clean (l : List Char) : cleanL (urlsplit l).path :=
  fun c hc => cleanL_removeUnsafe l c (urlsplit_path_subset l hc)

theorem path_shape (rest2 : List Char)
    (h : rest2 = [] ∨ ∃ d r2, rest2 = d :: r2 ∧ isNetlocDelim d = true) :
    (rest2.takeWhile (fun c => c ≠ '#')).takeWhile (fun c => c ≠ '?') = [] ∨
    ∃ ps, (rest2.takeWhile (fun c => c ≠ '#')).takeWhile (fun c => c ≠ '?') =
      '/' :: ps := by
  rcases h with h | ⟨d, r2, hd, hdel⟩
  · left
    rw [h]
    rfl
  · rcases isNetlocDelim_cases d hdel with h1 | h1 | h1 <;> subst h1 <;> rw [hd]
    · right
      rw [List.takeWhile_cons_of_pos (by decide),
        List.takeWhile_cons_of_pos (by decide)]
      exact ⟨_, rfl⟩
    · left
      rw [List.takeWhile_cons_of_pos (by decide),
        List.takeWhile_cons_of_neg (by decide)]
    · left
      rw [List.takeWhile_cons_of_neg (by decide)]
      rfl

theorem dropWhile_shape (q : Char → Bool) (l : List Char) :
    l.dropWhile q = [] ∨ ∃ d r, l.dropWhile q = d :: r ∧ q d = false := by
  cases hd : l.dropWhile q with
  | nil => exact Or.inl rfl
  | cons d r => exact Or.inr ⟨d, r, rfl, dropWhile_head_false q l d r hd⟩

theorem urlsplit_netloc_path_slash (l : List Char)
    (hne : (urlsplit l).netloc ≠ []) :
    (urlsplit l).path = [] ∨ ∃ ps, (urlsplit l).path = '/' :: ps := by
  obtain ⟨sch, rest, nl, rest2, hss, hbr, hU⟩ := urlsplit_parts l
  rw [hU] at hne ⊢
  dsimp only at hne ⊢
  rcases hbr with ⟨hb, hnn⟩ | ⟨hb, hnl, hr2⟩
  · rw [splitNetloc] at hnn
    injection hnn with h1 h2
    apply path_shape
    rcases dropWhile_shape (fun c => !isNetlocDelim c) (rest.drop 2) with
      h | ⟨d, r, hd, hq⟩
    · left
      rw [← h2, h]
    · right
      refine ⟨d, r, by rw [← h2, hd], ?_⟩
      simpa using hq
  · exact absurd hnl hne

theorem urlsplit_no_scheme_path (l : List Char)
    (hs : (urlsplit l).scheme = []) (hn : (urlsplit l).netloc = []) :
    schemeOk (urlsplit l).path = false := by
  obtain ⟨sch, rest, nl, rest2, hss, hbr, hU⟩ := urlsplit_parts l
  rw [hU] at hs hn ⊢
  dsimp only at hs hn ⊢
  rcases hbr with ⟨hb, hnn⟩ | ⟨hb, hnl, hr2⟩
  · rw [splitNetloc] at hnn
    injection hnn with h1 h2
    have hshape := path_shape rest2 ?_
    · rcases hshape with h | ⟨ps, h⟩
      · rw [h]
        exact schemeOk_nil
      · rw [h]
        exact schemeOk_head_bad _ '/' rfl (by decide)
    · rcases dropWhile_shape (fun c => !isNetlocDelim c) (rest.drop 2) with
        h | ⟨d, r, hd, hq⟩
      · left
        rw [← h2, h]
      · right
        refine ⟨d, r, by rw [← h2, hd], ?_⟩
        simpa using hq
  · subst hr2
    have hokf : schemeOk (removeUnsafe l) = false := by
      cases hok : schemeOk (removeUnsafe l)
      · rfl
      · exfalso
        rw [splitScheme, if_pos hok] at hss
        injection hss with hA hB
        obtain ⟨hlen, hneq, _, _⟩ := (schemeOk_iff (removeUnsafe l)).mp hok
        rw [hs] at hA
        exact hneq (List.map_eq_nil_iff.mp hA)
    have hrest : rest2 = removeUnsafe l := by
      rw [splitScheme_of_not_ok _ hokf] at hss
      injection hss with hA hB
      exact hB.symm
    cases hok2 : schemeOk
      ((rest2.takeWhile (fun c => decide (c ≠ '#'))).takeWhile
        (fun c => decide (c ≠ '?')))
    · rfl
    · have e1 := List.takeWhile_append_dropWhile
        (fun c => decide (c ≠ '#')) rest2
      have e2 := List.takeWhile_append_dropWhile
        (fun c => decide (c ≠ '?'))
        (rest2.takeWhile (fun c => decide (c ≠ '#')))
      have h3 := schemeOk_of_append _
        ((rest2.takeWhile (fun c => decide (c ≠ '#'))).dropWhile
          (fun c => decide (c ≠ '?'))) hok2
      rw [e2] at h3
      have h4 := schemeOk_of_append _
        (rest2.dropWhile (fun c => decide (c ≠ '#'))) h3
      rw [e1, hrest] at h4
      rw [hokf] at h4
      exact absurd h4 Bool.false_ne_true

theorem urlunsplit_empty_qf (sch nl p : List Char) :
    urlunsplit sch nl p [] [] =
      (if sch ≠ [] then
        sch ++ ':' ::
          (if nl ≠ [] ∨ (sch ≠ [] ∧ uses_netloc.contains sch ∧
              p.take 2 ≠ ['/', '/']) then
            '/' :: '/' :: nl ++
              (if p ≠ [] ∧ p.take 1 ≠ ['/'] then '/' :: p else p)
          else p)
      else
        (if nl ≠ [] ∨ (sch ≠ [] ∧ uses_netloc.contains sch ∧
            p.take 2 ≠ ['/', '/']) then
          '/' :: '/' :: nl ++
            (if p ≠ [] ∧ p.take 1 ≠ ['/'] then '/' :: p else p)
        else p)) := rfl

theorem canon_reassemble (sch nl p : List Char)
    (hsch : sch = [] ∨ SchemeValid sch)
    (hnl : ∀ c ∈ nl, isNetlocDelim c = false)
    (hp : ∀ c ∈ p, c ≠ '#' ∧ c ≠ '?')
    (hclean_p : cleanL p)
    (hslash : nl ≠ [] → p = [] ∨ ∃ ps, p = '/' :: ps)
    (hnosch : sch = [] → nl = [] → schemeOk p = false)
    (hclean_nl : cleanL nl)
    (hamend : nl ≠ [] ∨ p.take 2 ≠ ['/', '/']) :
    urlunsplit (urlsplit (urlunsplit sch nl p [] [])).scheme
      (urlsplit (urlunsplit sch nl p [] [])).netloc
      (urlsplit (urlunsplit sch nl p [] [])).path [] [] =
      urlunsplit sch nl p [] [] := by
  by_cases hne : nl = []
  · subst hne
    have hp2 : p.take 2 ≠ ['/', '/'] := hamend.resolve_left (fun hh => hh rfl)
    by_cases hs0 : sch = []
    · subst hs0
      have hcondf : ¬(([] : List Char) ≠ [] ∨ (([] : List Char) ≠ [] ∧
          uses_netloc.contains ([] : List Char) ∧
          p.take 2 ≠ ['/', '/'])) := by
        intro hh
        rcases hh with hh | hh
        · exact hh rfl
        · exact hh.1 rfl
      have hr : urlunsplit [] [] p [] [] = p := by
        rw [urlunsplit_empty_qf, if_neg (fun hh => hh rfl), if_neg hcondf]
      have hU : urlsplit p = ⟨[], [], p, [], []⟩ :=
        urlsplit_compute p p [] p [] p
          (removeUnsafe_eq_self _ hclean_p)
          (splitScheme_of_not_ok _ (hnosch rfl rfl)) (if_neg hp2) hp
      rw [hr, hU]
      exact hr
    · have hv : SchemeValid sch := hsch.resolve_left hs0
      by_cases hctn : uses_netloc.contains sch = true
      · have hcond : ([] : List Char) ≠ [] ∨ (sch ≠ [] ∧
            uses_netloc.contains sch ∧ p.take 2 ≠ ['/', '/']) :=
          Or.inr ⟨hs0, hctn, hp2⟩
        by_cases hpe : p = []
        · subst hpe
          have hr : urlunsplit sch [] [] [] [] =
              sch ++ ':' :: ['/', '/'] := by
            rw [urlunsplit_empty_qf, if_pos hs0, if_pos hcond,
              if_neg (fun hh => hh.1 rfl)]
            simp
          have hclean : cleanL (sch ++ ':' :: ['/', '/']) :=
            cleanL_append sch _ (cleanL_scheme sch hv)
              (cleanL_cons _ _ (by decide) (cleanL_cons _ _ (by decide)
                (cleanL_cons _ _ (by decide) cleanL_nil)))
          have hU : urlsplit (sch ++ ':' :: ['/', '/']) =
              ⟨sch, [], [], [], []⟩ := by
            refine urlsplit_compute _ _ sch ['/', '/'] [] []
              (removeUnsafe_eq_self _ hclean) (splitScheme_valid sch _ hv)
              ?_ ?_
            · have ht : List.take 2 (['/', '/'] : List Char) = ['/', '/'] :=
                rfl
              rw [if_pos ht]
              rfl
            · intro x hx
              exact absurd hx (List.not_mem_nil x)
          rw [hr, hU]
          exact hr
        · obtain ⟨c, ps, hcp⟩ : ∃ c ps, p = c :: ps := by
            rcases p with _ | ⟨c, ps⟩
            · exact absurd rfl hpe
            · exact ⟨c, ps, rfl⟩
          subst hcp
          by_cases hcs : c = '/'
          · subst hcs
            have hinner : (if ('/' :: ps) ≠ [] ∧
                ('/' :: ps).take 1 ≠ ['/'] then
                  '/' :: '/' :: ps else '/' :: ps) = '/' :: ps := by
              apply if_neg
              intro hh
              exact hh.2 rfl
            have hr : urlunsplit sch [] ('/' :: ps) [] [] =
                sch ++ ':' :: '/' :: '/' :: '/' :: ps := by
              rw [urlunsplit_empty_qf, if_pos hs0, if_pos hcond, hinner]
              simp
            have hclean : cleanL (sch ++ ':' :: '/' :: '/' :: '/' :: ps) :=
              cleanL_append sch _ (cleanL_scheme sch hv)
                (cleanL_cons _ _ (by decide) (cleanL_cons _ _ (by decide)
                  (cleanL_cons _ _ (by decide) hclean_p)))
            have hU : urlsplit (sch ++ ':' :: '/' :: '/' :: '/' :: ps) =
                ⟨sch, [], '/' :: ps, [], []⟩ := by
              refine urlsplit_compute _ _ sch ('/' :: '/' :: '/' :: ps) []
                ('/' :: ps) (removeUnsafe_eq_self _ hclean)
                (splitScheme_valid sch _ hv) ?_ hp
              have ht : List.take 2 ('/' :: '/' :: '/' :: ps) = ['/', '/'] :=
                rfl
              rw [if_pos ht]
              exact splitNetloc_slash ps
            rw [hr, hU]
            exact hr
          · have hinner : (if (c :: ps) ≠ [] ∧
                (c :: ps).take 1 ≠ ['/'] then
                  '/' :: c :: ps else c :: ps) = '/' :: c :: ps := by
              apply if_pos
              refine ⟨fun hh => List.noConfusion hh, fun hh => ?_⟩
              rw [List.take_succ_cons, List.take_zero] at hh
              injection hh with h1
              exact hcs h1
            have hr : urlunsplit sch [] (c :: ps) [] [] =
                sch ++ ':' :: '/' :: '/' :: '/' :: c :: ps := by
              rw [urlunsplit_empty_qf, if_pos hs0, if_pos hcond, hinner]
              simp
            have hclean :
                cleanL (sch ++ ':' :: '/' :: '/' :: '/' :: c :: ps) :=
              cleanL_append sch _ (cleanL_scheme sch hv)
                (cleanL_cons _ _ (by decide) (cleanL_cons _ _ (by decide)
                  (cleanL_cons _ _ (by decide)
                    (cleanL_cons _ _ (by decide) hclean_p))))
            have hU : urlsplit (sch ++ ':' :: '/' :: '/' :: '/' :: c :: ps) =
                ⟨sch, [], '/' :: c :: ps, [], []⟩ := by
              refine urlsplit_compute _ _ sch ('/' :: '/' :: '/' :: c :: ps)
                [] ('/' :: c :: ps) (removeUnsafe_eq_self _ hclean)
                (splitScheme_valid sch _ hv) ?_ ?_
              · have ht :
                    List.take 2 ('/' :: '/' :: '/' :: c :: ps) =
                      ['/', '/'] := rfl
                rw [if_pos ht]
                exact splitNetloc_slash (c :: ps)
              · intro x hx
                rcases List.mem_cons.mp hx with h | h
                · rw [h]
                  exact ⟨by decide, by decide⟩
                · exact hp x h
            rw [hr, hU]
            have hcond2 : ([] : List Char) ≠ [] ∨ (sch ≠ [] ∧
                uses_netloc.contains sch ∧
                ('/' :: c :: ps).take 2 ≠ ['/', '/']) := by
              refine Or.inr ⟨hs0, hctn, fun hh => ?_⟩
              rw [List.take_succ_cons, List.take_succ_cons,
                List.take_zero] at hh
              injection hh with h1 h2
              injection h2 with h2 _
              exact hcs h2
            have hinner2 : (if ('/' :: c :: ps) ≠ [] ∧
                ('/' :: c :: ps).take 1 ≠ ['/'] then
                  '/' :: '/' :: c :: ps else '/' :: c :: ps) =
                '/' :: c :: ps := by
              apply if_neg
              intro hh
              exact hh.2 rfl
            show urlunsplit sch [] ('/' :: c :: ps) [] [] =
              sch ++ ':' :: '/' :: '/' :: '/' :: c :: ps
            rw [urlunsplit_empty_qf, if_pos hs0, if_pos hcond2, hinner2]
            simp
      · have hcondf : ¬(([] : List Char) ≠ [] ∨ (sch ≠ [] ∧
            uses_netloc.contains sch ∧ p.take 2 ≠ ['/', '/'])) := by
          intro hh
          rcases hh with hh | hh
          · exact hh rfl
          · exact hctn hh.2.1
        have hr : urlunsplit sch [] p [] [] = sch ++ ':' :: p := by
          rw [urlunsplit_empty_qf, if_pos hs0, if_neg hcondf]
        have hclean : cleanL (sch ++ ':' :: p) :=
          cleanL_append sch _ (cleanL_scheme sch hv)
            (cleanL_cons _ _ (by decide) hclean_p)
        have hU : urlsplit (sch ++ ':' :: p) = ⟨sch, [], p, [], []⟩ :=
          urlsplit_compute _ _ sch p [] p
            (removeUnsafe_eq_self _ hclean) (splitScheme_valid sch _ hv)
            (if_neg hp2) hp
        rw [hr, hU]
        exact hr
  · have hinner : (if p ≠ [] ∧ p.take 1 ≠ ['/'] then '/' :: p else p) =
        p := by
      rcases hslash hne with hpe | ⟨ps, hps⟩
      · apply if_neg
        intro hh
        exact hh.1 hpe
      · apply if_neg
        intro hh
        apply hh.2
        rw [hps]
        rfl
    have hcond : nl ≠ [] ∨ (sch ≠ [] ∧ uses_netloc.contains sch ∧
        p.take 2 ≠ ['/', '/']) := Or.inl hne
    by_cases hs0 : sch = []
    · subst hs0
      have hr : urlunsplit [] nl p [] [] = '/' :: '/' :: nl ++ p := by
        rw [urlunsplit_empty_qf, if_neg (fun hh => hh rfl), if_pos hcond,
          hinner]
      have hclean : cleanL ('/' :: '/' :: nl ++ p) :=
        cleanL_cons _ _ (by decide) (cleanL_cons _ _ (by decide)
          (cleanL_append nl p hclean_nl hclean_p))
      have hok : schemeOk ('/' :: '/' :: nl ++ p) = false :=
        schemeOk_head_bad _ '/' rfl (by decide)
      have hU : urlsplit ('/' :: '/' :: nl ++ p) = ⟨[], nl, p, [], []⟩ := by
        refine urlsplit_compute _ _ [] ('/' :: '/' :: nl ++ p) nl p
          (removeUnsafe_eq_self _ hclean) (splitScheme_of_not_ok _ hok)
          ?_ hp
        have ht : List.take 2 ('/' :: '/' :: nl ++ p) = ['/', '/'] := rfl
        rw [if_pos ht]
        exact splitNetloc_recover nl p hnl (hslash hne)
      rw [hr, hU]
      exact hr
    · have hv : SchemeValid sch := hsch.resolve_left hs0
      have hr : urlunsplit sch nl p [] [] =
          sch ++ ':' :: ('/' :: '/' :: nl ++ p) := by
        rw [urlunsplit_empty_qf, if_pos hs0, if_pos hcond, hinner]
      have hclean : cleanL (sch ++ ':' :: ('/' :: '/' :: nl ++ p)) :=
        cleanL_append sch _ (cleanL_scheme sch hv)
          (cleanL_cons _ _ (by decide)
            (cleanL_append ('/' :: '/' :: nl) p
              (cleanL_cons _ _ (by decide)
                (cleanL_cons _ _ (by decide) hclean_nl))
              hclean_p))
      have hU : urlsplit (sch ++ ':' :: ('/' :: '/' :: nl ++ p)) =
          ⟨sch, nl, p, [], []⟩ := by
        refine urlsplit_compute _ _ sch ('/' :: '/' :: nl ++ p) nl p
          (removeUnsafe_eq_self _ hclean)
          (splitScheme_valid sch ('/' :: '/' :: nl ++ p) hv) ?_ hp
        have ht2 : List.take 2 ('/' :: '/' :: nl ++ p) = ['/', '/'] := rfl
        rw [if_pos ht2]
        exact splitNetloc_recover nl p hnl (hslash hne)
      rw [hr, hU]
      exact hr

/-- C10 counterexample: `canonicalize_url` is not idempotent on every
string. On `"////"` the first pass parses an empty netloc with path `"//"`
and returns `"//"`, but the second pass re-parses that path as a netloc
marker and returns `""`. -/
theorem canonicalize_url_claim_counterexample :
    canonicalize_url "////" = "//" ∧
    canonicalize_url (canonicalize_url "////") ≠ canonicalize_url "////" := by
  constructor
  · decide
  · decide

/-- C10 (amended): `canonicalize_url` is idempotent on every URL whose
parse does not have both an empty netloc and a path starting with `//` —
in particular on every URL with a non-empty host, and on every
ordinary relative path.  The degenerate family `scheme:` + `////...`
(empty netloc, `//`-headed path) is the only exception. -/
theorem canonicalize_url_idem (u : String)
    (h : (urlsplit u.toList).netloc ≠ [] ∨
      ¬ (urlsplit u.toList).path.take 2 = ['/', '/']) :
    canonicalize_url (canonicalize_url u) = canonicalize_url u := by
  have key := canon_reassemble (urlsplit u.toList).scheme
    (urlsplit u.toList).netloc (urlsplit u.toList).path
    (urlsplit_scheme_valid u.toList)
    (urlsplit_netloc_no_delim u.toList)
    (urlsplit_path_no_qf u.toList)
    (urlsplit_path_clean u.toList)
    (urlsplit_netloc_path_slash u.toList)
    (urlsplit_no_scheme_path u.toList)
    (urlsplit_netloc_clean u.toList)
    h
  exact congrArg List.asString key

/-- C10 witness: the amended idempotence theorem applied to the concrete
URL `http://x/p?q`, whose parse has a non-empty netloc. -/
theorem canonicalize_url_idem_witness :
    ((urlsplit ("http://x/p?q" : String).toList).netloc ≠ [] ∨
      ¬ (urlsplit ("http://x/p?q" : String).toList).path.take 2 =
        ['/', '/']) ∧
    canonicalize_url (canonicalize_url "http://x/p?q") =
      canonicalize_url "http://x/p?q" :=
  ⟨by decide, canonicalize_url_idem "http://x/p?q" (by decide)⟩
